import Mathlib

/-!
# Branching multi-store (store/cachemulti) — verification development

A shallow embedding of `store/cachemulti/store.go`.

Go values with reference semantics (stores, overlays, maps) live in an explicit
`State`; a reference is a natural number, the position at which the object
was allocated.  A
`panic` is the `Except.error` result.

The single-substore overlay (`store/cachekv`) is not part of the sources at
hand; it is modelled from the specification (section 2): it buffers writes,
serves reads from its buffer first and then from the store it wraps, and its
`Write` flushes the buffer into the wrapped store.
-/

namespace cachemulti

/-! ## Go maps -/

/-- A Go map as an association list.  The order of the list stands for the
order in which a `range` statement visits the entries, which Go leaves
unspecified.  A well-formed map has no two entries with the same key. -/
abbrev GoMap (κ ν : Type) := List (κ × ν)

namespace GoMap

/-- The keys of a map, in visiting order. -/
def keys {κ ν : Type} (m : GoMap κ ν) : List κ := m.map Prod.fst

/-- Reading `m[k]`: the value under `k`, `none` when `k` is not in the map. -/
def get? {κ ν : Type} [DecidableEq κ] : GoMap κ ν → κ → Option ν
  | [], _ => none
  | (k', v) :: rest, k => if k' = k then some v else get? rest k

/-- The assignment `m[k] = v`: replaces the value of an existing key, adds a
new entry otherwise. -/
def set {κ ν : Type} [DecidableEq κ] : GoMap κ ν → κ → ν → GoMap κ ν
  | [], k, v => [(k, v)]
  | (k', v') :: rest, k, v =>
    if k' = k then (k', v) :: rest else (k', v') :: set rest k v

end GoMap

/-! ## Types of the store package -/

/-- Byte strings (keys and values of a key-value store). -/
abbrev Bytes := List Nat

/-- The interface `types.StoreKey`: either the nil interface or a pointer to a
key object; equality is identity of the pointer. -/
inductive StoreKey where
  | nil : StoreKey
  | ptr (id : Nat) : StoreKey
deriving DecidableEq, Repr

/-- An `io.Writer` (identity of the sink). -/
abbrev Writer := Nat

/-- A `types.WriteListener` (identity of the callback). -/
abbrev WriteListener := Nat

/-- The map type `types.TraceContext`. -/
abbrev TraceContext := GoMap String String

/-- What stands between an overlay's buffer and the store it wraps. -/
inductive Deco where
  /-- The overlay made by `cachekv.NewStore(parent, key, limit)`. -/
  | plain : Deco
  /-- The overlay made by
  `cachekv.NewStore(tracekv.NewStore(parent, w, tc), key, limit)`. -/
  | trace (w : Option Writer) (tc : Option Nat) : Deco
  /-- The overlay made by
  `cachekv.NewStore(listenkv.NewStore(parent, key, ls), key, limit)`. -/
  | listen (key : StoreKey) (ls : List WriteListener) : Deco
deriving DecidableEq, Repr

/-- A single-substore overlay: the store it wraps, the decorator in between,
the arguments it was made with and its buffer of staged writes (`none` is a
staged deletion). -/
structure Overlay where
  parent : Nat
  deco : Deco
  storeKey : StoreKey
  limit : Int
  cache : GoMap Bytes (Option Bytes)
deriving DecidableEq, Repr

/-- An allocated store: a committed key-value store or an overlay. -/
inductive Node where
  | db (data : GoMap Bytes Bytes) : Node
  | overlay (o : Overlay) : Node
deriving DecidableEq, Repr

/-- A method call recorded in the state. -/
inductive Call where
  | write (a : Nat) : Call
deriving DecidableEq, Repr

/-- The program state.  `kv` holds the allocated stores, newest first: the
address of a node is the number of nodes allocated before it.  `tcs` and `lss`
hold the trace-context maps and the listener registries (Go maps are
references), oldest first.  `calls` records the `Write` calls made on
overlays, oldest first. -/
structure State where
  kv : List Node
  tcs : List TraceContext
  lss : List (GoMap StoreKey (List WriteListener))
  calls : List Call
deriving DecidableEq, Repr

/-- The struct `Store`.  Map-typed fields that the code may leave nil are
optional references. -/
structure Store where
  db : Nat
  stores : GoMap StoreKey Nat
  keys : Option (GoMap String StoreKey)
  traceWriter : Option Writer
  traceContext : Option Nat
  listeners : Option Nat
deriving DecidableEq, Repr

/-! ## The heap of stores -/

/-- The node at an address. -/
def nodeAt : List Node → Nat → Option Node
  | [], _ => none
  | n :: older, a => if a = older.length then some n else nodeAt older a

/-- Replace the node at an address by its image under `f`. -/
def modifyAt (f : Node → Node) : List Node → Nat → List Node
  | [], _ => []
  | n :: older, a =>
    if a = older.length then f n :: older else n :: modifyAt f older a

/-- Allocate a node; returns its address. -/
def alloc (s : State) (n : Node) : Nat × State :=
  (s.kv.length, { s with kv := n :: s.kv })

end cachemulti

/-! ## The single-substore overlay -/

namespace cachekv

open cachemulti

/-- Modelled from the spec: `cachekv.NewStore`, missing from the sources; a
fresh overlay with an empty buffer in front of `parent`. -/
def NewStore (s : State) (parent : Nat) (deco : Deco) (key : StoreKey)
    (limit : Int) : Nat × State :=
  alloc s (Node.overlay
    { parent := parent, deco := deco, storeKey := key, limit := limit, cache := [] })

/-- Modelled from the spec: the overlay's `Get`, missing from the sources;
"serves reads by first checking its buffer then the wrapped store".  A store
wraps a store allocated before it. -/
def getFrom : List Node → Nat → Bytes → Option Bytes
  | [], _, _ => none
  | n :: older, a, k =>
    if a = older.length then
      match n with
      | Node.db data => data.get? k
      | Node.overlay o =>
        match o.cache.get? k with
        | some e => e
        | none => getFrom older o.parent k
    else getFrom older a k

/-- Reading key `k` from the store at address `a`. -/
def Get (s : State) (a : Nat) (k : Bytes) : Option Bytes := getFrom s.kv a k

/-- Stage (overlay) or apply (committed store) one entry. -/
def putNode (k : Bytes) (e : Option Bytes) : Node → Node
  | Node.db data =>
    match e with
    | some v => Node.db (data.set k v)
    | none => Node.db (data.filter (fun p => decide (p.1 ≠ k)))
  | Node.overlay o => Node.overlay { o with cache := o.cache.set k e }

/-- Modelled from the spec: the overlay's `Set`, missing from the sources;
"buffers writes in memory". -/
def Set (s : State) (a : Nat) (k v : Bytes) : State :=
  { s with kv := modifyAt (putNode k (some v)) s.kv a }

/-- Modelled from the spec: the overlay's `Delete`, missing from the
sources. -/
def Delete (s : State) (a : Nat) (k : Bytes) : State :=
  { s with kv := modifyAt (putNode k none) s.kv a }

/-- Empty the buffer of an overlay. -/
def clearNode : Node → Node
  | Node.db data => Node.db data
  | Node.overlay o => Node.overlay { o with cache := [] }

/-- Modelled from the spec: the overlay's `Write`, missing from the sources;
"flush buffer into wrapped store", after which the buffer is empty.  The call
is recorded. -/
def Write (s : State) (a : Nat) : State :=
  let s1 : State := { s with calls := s.calls ++ [Call.write a] }
  match nodeAt s1.kv a with
  | some (Node.overlay o) =>
    let kv1 := o.cache.foldl (fun kv e => modifyAt (putNode e.1 e.2) kv o.parent) s1.kv
    { s1 with kv := modifyAt clearNode kv1 a }
  | _ => s1

/-- Modelled from the spec: `CacheWrap` of a substore provider, missing from
the sources; "produce a child overlay". -/
def CacheWrap (s : State) (w : Nat) (key : StoreKey) (limit : Int) : Nat × State :=
  NewStore s w Deco.plain key limit

/-- Modelled from the spec: `CacheWrapWithTrace` of a substore provider,
missing from the sources; a child overlay that emits trace records. -/
def CacheWrapWithTrace (s : State) (w : Nat) (key : StoreKey) (tw : Option Writer)
    (tc : Option Nat) (limit : Int) : Nat × State :=
  NewStore s w (Deco.trace tw tc) key limit

/-- Modelled from the spec: `CacheWrapWithListeners` of a substore provider,
missing from the sources; a child overlay that notifies listeners. -/
def CacheWrapWithListeners (s : State) (w : Nat) (key : StoreKey)
    (ls : List WriteListener) (limit : Int) : Nat × State :=
  NewStore s w (Deco.listen key ls) key limit

end cachekv

/-! ## The branching multi-store -/

namespace cachemulti

/-- The comma-ok read `cms.listeners[key]`: the list under `key`, `none` when
the registry is nil or has no entry for `key`. -/
def Store.listenersAt (s : State) (cms : Store) (key : StoreKey) :
    Option (List WriteListener) :=
  match cms.listeners with
  | none => none
  | some r =>
    match s.lss[r]? with
    | none => none
    | some m => m.get? key

/-- The method `TracingEnabled`: `cms.traceWriter != nil`. -/
def Store.TracingEnabled (cms : Store) : Bool := cms.traceWriter.isSome

/-- The method `ListeningEnabled`: the registry has an entry for `key` and
that entry is not empty. -/
def Store.ListeningEnabled (s : State) (cms : Store) (key : StoreKey) : Bool :=
  match cms.listenersAt s key with
  | some ls => decide (ls.length ≠ 0)
  | none => false

/-- The body of the loop of `NewFromKVStore` (lines 52-64) for one entry
`(key, store)` of the wrappers map. -/
def NewFromKVStore.step (cacheLimit : Int) (acc : Store × State)
    (e : StoreKey × Nat) : Store × State :=
  let cms := acc.1
  let cacheWrapped :=
    if cms.TracingEnabled then
      cachekv.CacheWrapWithTrace acc.2 e.2 e.1 cms.traceWriter cms.traceContext cacheLimit
    else
      cachekv.CacheWrap acc.2 e.2 e.1 cacheLimit
  if cms.ListeningEnabled cacheWrapped.2 e.1 then
    let outer := cachekv.CacheWrapWithListeners cacheWrapped.2 cacheWrapped.1 e.1
      ((cms.listenersAt cacheWrapped.2 e.1).getD []) cacheLimit
    ({ cms with stores := cms.stores.set e.1 outer.1 }, outer.2)
  else
    ({ cms with stores := cms.stores.set e.1 cacheWrapped.1 }, cacheWrapped.2)

/-- The store `NewFromKVStore` starts from (lines 43-50): a fresh base overlay
over `store` and an empty substore map. -/
def NewFromKVStore.init (s : State) (store : Nat)
    (keys : Option (GoMap String StoreKey)) (traceWriter : Option Writer)
    (traceContext : Option Nat) (listeners : Option Nat) (cacheLimit : Int) :
    Store × State :=
  let base := cachekv.NewStore s store Deco.plain StoreKey.nil cacheLimit
  ({ db := base.1, stores := [], keys := keys, traceWriter := traceWriter,
     traceContext := traceContext, listeners := listeners }, base.2)

/-- The function `NewFromKVStore`. -/
def NewFromKVStore (s : State) (store : Nat) (stores : GoMap StoreKey Nat)
    (keys : Option (GoMap String StoreKey)) (traceWriter : Option Writer)
    (traceContext : Option Nat) (listeners : Option Nat) (cacheLimit : Int) :
    Store × State :=
  stores.foldl (NewFromKVStore.step cacheLimit)
    (NewFromKVStore.init s store keys traceWriter traceContext listeners cacheLimit)

/-- The function `NewStore`: the adapter `dbadapter.Store` over `db` is a
stateless value, it has the address of `db`. -/
def NewStore (s : State) (db : Nat) (stores : GoMap StoreKey Nat)
    (keys : Option (GoMap String StoreKey)) (traceWriter : Option Writer)
    (traceContext : Option Nat) (listeners : Option Nat) (cacheLimit : Int) :
    Store × State :=
  NewFromKVStore s db stores keys traceWriter traceContext listeners cacheLimit

/-- The function `newCacheMultiStoreFromCMS`. -/
def newCacheMultiStoreFromCMS (s : State) (cms : Store) (cacheLimit : Int) :
    Store × State :=
  let stores : GoMap StoreKey Nat := cms.stores.foldl (fun m e => m.set e.1 e.2) []
  NewFromKVStore s cms.db stores none cms.traceWriter cms.traceContext cms.listeners
    cacheLimit

/-- The method `CacheMultiStore`. -/
def Store.CacheMultiStore (s : State) (cms : Store) (size : Int) : Store × State :=
  newCacheMultiStoreFromCMS s cms size

/-- The method `Write`: the base overlay, then every substore overlay. -/
def Store.Write (s : State) (cms : Store) : State :=
  cms.stores.foldl (fun st e => cachekv.Write st e.2) (cachekv.Write s cms.db)

/-- The method `CacheMultiStoreWithVersion`: the result would be a store and
an error value. -/
def Store.CacheMultiStoreWithVersion (_cms : Store) (_version : Int) (_size : Int) :
    Except String (Store × Option String) :=
  Except.error "cannot branch cached multi-store with a version"

/-- The message of the panic of `GetStore` and `GetKVStore` (the rendering of
the key is left out). -/
def notRegistered : String := "kv store with key has not been registered in stores"

/-- The method `GetStore`.  A read of a missing key gives the nil interface,
here `none`. -/
def Store.GetStore (cms : Store) (key : StoreKey) : Except String Nat :=
  match cms.stores.get? key with
  | none => Except.error notRegistered
  | some a => if key = StoreKey.nil then Except.error notRegistered else Except.ok a

/-- The method `GetKVStore`. -/
def Store.GetKVStore (cms : Store) (key : StoreKey) : Except String Nat :=
  match cms.stores.get? key with
  | none => Except.error notRegistered
  | some a => if key = StoreKey.nil then Except.error notRegistered else Except.ok a

/-- The method `GetWorkingHash`. -/
def Store.GetWorkingHash (_cms : Store) : Except String Bytes :=
  Except.error "should never attempt to get working hash from cache multi store"

/-- The calls that the method `Write` of the multi-store makes, in order. -/
def Store.writeCalls (s : State) (cms : Store) : List Call :=
  (cms.Write s).calls.drop s.calls.length

/-- In the sequence `calls`, a call `x` is made before a call `y`. -/
def calledBefore (calls : List Call) (x y : Call) : Prop :=
  ∃ i j : Nat, i < j ∧ calls[i]? = some x ∧ calls[j]? = some y

/-! ## Client operations on a multi-store -/

/-- A write through a substore of a multi-store:
`cms.GetKVStore(key).Set(k, v)` or `cms.GetKVStore(key).Delete(k)`. -/
inductive Op where
  | set (key : StoreKey) (k v : Bytes) : Op
  | delete (key : StoreKey) (k : Bytes) : Op
deriving DecidableEq, Repr

/-- Run one operation on the substores of `cms`. -/
def Store.applyOp (s : State) (cms : Store) : Op → Except String State
  | Op.set key k v =>
    match cms.GetKVStore key with
    | Except.ok a => Except.ok (cachekv.Set s a k v)
    | Except.error msg => Except.error msg
  | Op.delete key k =>
    match cms.GetKVStore key with
    | Except.ok a => Except.ok (cachekv.Delete s a k)
    | Except.error msg => Except.error msg

/-- Run a sequence of operations on the substores of `cms`; the state reached
and, when an operation panicked (which ends the sequence), its message. -/
def Store.applyOps (cms : Store) : State → List Op → State × Option String
  | s, [] => (s, none)
  | s, op :: ops =>
    match cms.applyOp s op with
    | Except.ok s1 => applyOps cms s1 ops
    | Except.error msg => (s, some msg)

/-- A read through a substore of a multi-store: `cms.GetKVStore(key).Get(k)`. -/
def Store.read (s : State) (cms : Store) (key : StoreKey) (k : Bytes) :
    Except String (Option Bytes) :=
  match cms.GetKVStore key with
  | Except.ok a => Except.ok (cachekv.Get s a k)
  | Except.error msg => Except.error msg

end cachemulti

/-! ## The overlays the constructor is specified to build -/

namespace cachemulti

/-- The overlay `w.CacheWrapWithTrace(key, tw, tc, limit)` when the trace
writer `tw` is set, the overlay `w.CacheWrap(key, limit)` when it is not. -/
def tracedWrap (w : Nat) (key : StoreKey) (tw : Option Writer) (tc : Option Nat)
    (limit : Int) : Node :=
  Node.overlay
    { parent := w, deco := if tw.isSome then Deco.trace tw tc else Deco.plain,
      storeKey := key, limit := limit, cache := [] }

/-- The overlay `inner.CacheWrapWithListeners(key, ls, limit)`. -/
def listenedWrap (inner : Nat) (key : StoreKey) (ls : List WriteListener)
    (limit : Int) : Node :=
  Node.overlay
    { parent := inner, deco := Deco.listen key ls, storeKey := key, limit := limit,
      cache := [] }

/-- The listeners the constructor wraps the overlay of `key` with: the list
registered for `key` when listening is enabled for `key`, `none` when it is
not. -/
def Store.enabledListeners (s : State) (cms : Store) (key : StoreKey) :
    Option (List WriteListener) :=
  if cms.ListeningEnabled s key then some ((cms.listenersAt s key).getD []) else none

/-- The overlay at address `a` is the one specified for the wrapper `w` under
`key`: the traced (or plain) cache-wrap of `w` itself when listening is off
(`ls = none`), and the listener cache-wrap of that cache-wrap when listening is
on. -/
def StoredOverlay (kv : List Node) (a w : Nat) (key : StoreKey) (tw : Option Writer)
    (tc : Option Nat) (ls : Option (List WriteListener)) (limit : Int) : Prop :=
  match ls with
  | none => nodeAt kv a = some (tracedWrap w key tw tc limit)
  | some l =>
    ∃ i, nodeAt kv a = some (listenedWrap i key l limit) ∧
      nodeAt kv i = some (tracedWrap w key tw tc limit)

/-- The constructor's loop leaves the configuration and the existing stores
alone: it only allocates. -/
def Grows (acc acc' : Store × State) : Prop :=
  acc'.1.db = acc.1.db ∧ acc'.1.keys = acc.1.keys ∧
  acc'.1.traceWriter = acc.1.traceWriter ∧ acc'.1.traceContext = acc.1.traceContext ∧
  acc'.1.listeners = acc.1.listeners ∧ acc'.2.tcs = acc.2.tcs ∧ acc'.2.lss = acc.2.lss ∧
  acc'.2.calls = acc.2.calls ∧ ∃ new, acc'.2.kv = new ++ acc.2.kv

/-- The store at address `b` was allocated at or after position `n` as an
overlay that wraps a store satisfying `W`, directly or through one more
overlay allocated at or after position `n`. -/
def FreshOver (n : Nat) (W : Nat → Prop) (kv : List Node) (b : Nat) : Prop :=
  n ≤ b ∧ ∃ o, nodeAt kv b = some (Node.overlay o) ∧
    (W o.parent ∨
      (n ≤ o.parent ∧ ∃ o', nodeAt kv o.parent = some (Node.overlay o') ∧ W o'.parent))

/-- The state with only its `n` oldest stores: what is left of it when the
stores allocated later are dropped. -/
def State.restrict (s : State) (n : Nat) : State :=
  { s with kv := s.kv.drop (s.kv.length - n) }

/-! ## A concrete scenario -/

/-- The key of the substore "bank". -/
def bank : StoreKey := StoreKey.ptr 1

/-- The key "balance" of the bank substore. -/
def balance : Bytes := [98, 97, 108]

/-- Two committed stores, the bank module store (address 0) holding
`balance ↦ 100` and the root database (address 1), and one listener registry
(reference 0) with one listener for "bank". -/
def genesis : State :=
  { kv := [Node.db [], Node.db [(balance, [100])]], tcs := [],
    lss := [[(bank, [7])]], calls := [] }

/-- The root multi-store over `genesis` with the substore "bank". -/
def root (listeners : Option Nat) : Store × State :=
  NewStore genesis 1 [(bank, 0)] (some [("bank", bank)]) none none listeners 0

/-- A branch of the root multi-store. -/
def branch (listeners : Option Nat) : Store × State :=
  (root listeners).1.CacheMultiStore (root listeners).2 0

/-- The state after `balance ↦ 150` is set on the "bank" substore of the
branch. -/
def staged (listeners : Option Nat) : State :=
  ((branch listeners).1.applyOps (branch listeners).2 [Op.set bank balance [150]]).1

/-- The state after the branch is then written. -/
def committed (listeners : Option Nat) : State :=
  (branch listeners).1.Write (staged listeners)

end cachemulti

/-! ## Tracing configuration, listeners, events and cache-wrapping -/

namespace cachemulti

/-- The map a trace-context value points to: `none` for the nil map. -/
def contextAt (s : State) (tc : Option Nat) : Option TraceContext :=
  match tc with
  | none => none
  | some r => s.tcs[r]?

/-- The contents of the trace context of a store. -/
def Store.traceContextMap (s : State) (cms : Store) : Option TraceContext :=
  contextAt s cms.traceContext

/-- The contents of the listener registry of a store. -/
def Store.registry (s : State) (cms : Store) :
    Option (GoMap StoreKey (List WriteListener)) :=
  match cms.listeners with
  | none => none
  | some r => s.lss[r]?

/-- The method `SetTracer`: the receiver is a copy of the store, the field is
set on the copy and the copy is returned. -/
def Store.SetTracer (s : State) (cms : Store) (w : Option Writer) : Store × State :=
  ({ cms with traceWriter := w }, s)

/-- The loop `for k, v := range tc { m[k] = v }`: every entry of `extra` is
assigned in `base`. -/
def mergeContext (extra base : TraceContext) : TraceContext :=
  extra.foldl (fun m e => GoMap.set m e.1 e.2) base

/-- The state in which the trace-context map at reference `r` is `m`. -/
def State.setContext (s : State) (r : Nat) (m : TraceContext) : State :=
  { s with tcs := s.tcs.set r m }

/-- The method `SetTracingContext`.  When the trace context of the store is
not nil every entry of `tc` is assigned in that map (a `range` over a nil map
visits nothing); otherwise the field of the copy is set to `tc`. -/
def Store.SetTracingContext (s : State) (cms : Store) (tc : Option Nat) :
    Store × State :=
  match cms.traceContext with
  | some r =>
    (cms, s.setContext r (mergeContext ((contextAt s tc).getD []) ((s.tcs[r]?).getD [])))
  | none => ({ cms with traceContext := tc }, s)

/-- The assignment `cms.listeners[key] = ls`; an assignment to an entry of a
nil map panics. -/
def Store.assignListeners (s : State) (cms : Store) (key : StoreKey)
    (ls : List WriteListener) : Except String State :=
  match cms.listeners with
  | none => Except.error "assignment to entry in nil map"
  | some r =>
    Except.ok { s with lss := s.lss.set r (GoMap.set ((s.lss[r]?).getD []) key ls) }

/-- The method `AddListeners`. -/
def Store.AddListeners (s : State) (cms : Store) (key : StoreKey)
    (listeners : List WriteListener) : Except String State :=
  match cms.listenersAt s key with
  | some ls => cms.assignListeners s key (ls ++ listeners)
  | none => cms.assignListeners s key listeners

/-- The type `abci.Event`. -/
structure Event where
  kind : String
  attributes : List (Bytes × Bytes)
deriving DecidableEq, Repr

/-- A Go slice value: `none` is the nil slice. -/
abbrev GoSlice (α : Type) := Option (List α)

/-- The built-in `append(a, b...)`: the result is nil only when `a` is nil and
nothing is appended. -/
def goAppend {α : Type} (a b : GoSlice α) : GoSlice α :=
  match a, b.getD [] with
  | none, [] => none
  | _, l => some (a.getD [] ++ l)

/-- The method `GetEvents`.  The method `GetEvents` of a substore overlay is
missing from the sources; `overlayEvents a` is what it returns for the overlay
at address `a`. -/
def Store.GetEvents (overlayEvents : Nat → GoSlice Event) (cms : Store) : GoSlice Event :=
  cms.stores.foldl (fun events e => goAppend events (overlayEvents e.2)) (some [])

/-- The method `CacheWrap`: the key is not used. -/
def Store.CacheWrap (s : State) (cms : Store) (_key : StoreKey) (size : Int) :
    Store × State :=
  cms.CacheMultiStore s size

/-- The method `CacheWrapWithTrace`: the writer and the context are not used. -/
def Store.CacheWrapWithTrace (s : State) (cms : Store) (storeKey : StoreKey)
    (_w : Option Writer) (_tc : Option Nat) (size : Int) : Store × State :=
  cms.CacheWrap s storeKey size

/-- The method `CacheWrapWithListeners`: the listeners are not used. -/
def Store.CacheWrapWithListeners (s : State) (cms : Store) (storeKey : StoreKey)
    (_listeners : List WriteListener) (size : Int) : Store × State :=
  cms.CacheWrap s storeKey size

/-- The trace context a traced overlay annotates its records with: the
contents of the map it was given when it was built; `none` for a store that is
not a traced overlay and for the nil map. -/
def overlayContext (s : State) (a : Nat) : Option TraceContext :=
  match nodeAt s.kv a with
  | some (Node.overlay o) =>
    match o.deco with
    | Deco.trace _ tc => contextAt s tc
    | _ => none
  | _ => none

/-- The store at address `b` is a cache-wrap of the store at address `p`: an
overlay with an empty buffer whose wrapped store is `p`. -/
def IsCacheWrapOf (kv : List Node) (b p : Nat) : Prop :=
  ∃ o, nodeAt kv b = some (Node.overlay o) ∧ o.parent = p ∧ o.cache = []

/-- A state with two trace-context maps and one (empty) listener registry. -/
def tracedState : State :=
  { kv := [], tcs := [[("txIndex", "1")], [("txIndex", "2"), ("msg", "send")]],
    lss := [[]], calls := [] }

/-- A store whose trace context is the first map of `tracedState`. -/
def tracedStore : Store :=
  { db := 0, stores := [], keys := none, traceWriter := some 3, traceContext := some 0,
    listeners := some 0 }

/-- A state with two committed stores, the two trace-context maps of
`tracedState` and no listener registry. -/
def tracedGenesis : State :=
  { kv := [Node.db [], Node.db []],
    tcs := [[("txIndex", "1")], [("txIndex", "2"), ("msg", "send")]],
    lss := [], calls := [] }

/-- A root multi-store with the substore "bank", the trace writer 3 and the
first trace-context map of `tracedGenesis`. -/
def tracedRoot : Store × State :=
  NewStore tracedGenesis 1 [(bank, 0)] none (some 3) (some 0) none 0

end cachemulti

/-! ## The proposal handlers of the access-control module -/

namespace accesscontrol

/-- The type `sdk.AccAddress`: a byte string. -/
abbrev AccAddress := ByteArray

/-- The conversion `sdk.AccAddress(str)`: the bytes of the string. -/
def AccAddress.ofString (str : String) : AccAddress := str.toUTF8

/-- The keeper methods the handlers call.  The keeper is missing from the
sources: its methods are parameters.  They act on the state `σ` reached through
the context; a call either panics (`Except.error`) or returns the state it
leaves and an error value (`none` is the nil error). -/
structure Keeper (σ μ ω : Type) where
  SetResourceDependencyMapping : σ → μ → Except String (σ × Option String)
  SetWasmDependencyMapping : σ → AccAddress → ω → Except String (σ × Option String)

/-- The fields of `types.MsgUpdateResourceDependencyMappingProposal` that the
handler reads. -/
structure MsgUpdateResourceDependencyMappingProposal (μ : Type) where
  MessageDependencyMapping : List μ

/-- The fields of `types.MsgUpdateWasmDependencyMappingProposal` that the
handler reads. -/
structure MsgUpdateWasmDependencyMappingProposal (ω : Type) where
  ContractAddress : String
  WasmDependencyMapping : ω

/-- The dynamic type of a `govtypes.Content` value. -/
inductive Content (μ ω : Type) where
  | resource (c : MsgUpdateResourceDependencyMappingProposal μ) : Content μ ω
  | wasm (c : MsgUpdateWasmDependencyMappingProposal ω) : Content μ ω
  | other (typeName : String) : Content μ ω

/-- The loop of `HandleMsgUpdateResourceDependencyMappingProposal` (lines
13-15): one call of `SetResourceDependencyMapping` for each entry; what a call
returns is dropped, a panic of a call ends the loop. -/
def setEach {σ μ ω : Type} (k : Keeper σ μ ω) : σ → List μ → Except String σ
  | st, [] => Except.ok st
  | st, resourceDepMapping :: rest =>
    match k.SetResourceDependencyMapping st resourceDepMapping with
    | Except.ok r => setEach k r.1 rest
    | Except.error msg => Except.error msg

/-- The function `HandleMsgUpdateResourceDependencyMappingProposal`. -/
def HandleMsgUpdateResourceDependencyMappingProposal {σ μ ω : Type} (ctx : σ)
    (k : Keeper σ μ ω) (p : MsgUpdateResourceDependencyMappingProposal μ) :
    Except String (σ × Option String) :=
  match setEach k ctx p.MessageDependencyMapping with
  | Except.ok st => Except.ok (st, none)
  | Except.error msg => Except.error msg

/-- The function `HandleMsgUpdateWasmDependencyMappingProposal`. -/
def HandleMsgUpdateWasmDependencyMappingProposal {σ μ ω : Type} (ctx : σ)
    (k : Keeper σ μ ω) (p : MsgUpdateWasmDependencyMappingProposal ω) :
    Except String (σ × Option String) :=
  match k.SetWasmDependencyMapping ctx (AccAddress.ofString p.ContractAddress)
      p.WasmDependencyMapping with
  | Except.error msg => Except.error msg
  | Except.ok r =>
    match r.2 with
    | some err => Except.ok (r.1, some err)
    | none => Except.ok (r.1, none)

/-- The function `NewProposalHandler`. -/
def NewProposalHandler {σ μ ω : Type} (k : Keeper σ μ ω) (ctx : σ) :
    Content μ ω → Except String (σ × Option String)
  | Content.resource c => HandleMsgUpdateResourceDependencyMappingProposal ctx k c
  | Content.wasm c => HandleMsgUpdateWasmDependencyMappingProposal ctx k c
  | Content.other typeName =>
    Except.ok (ctx, some ("unrecognized accesscontrol proposal content type: " ++ typeName
      ++ ": unknown request"))

/-- A call of a keeper method, with its arguments. -/
inductive KeeperCall (μ ω : Type) where
  | setResource (m : μ) : KeeperCall μ ω
  | setWasm (addr : AccAddress) (m : ω) : KeeperCall μ ω

/-- A keeper that never panics: it records the calls made on it, oldest first,
and answers with the error values `resErr` and `wasmErr`. -/
def recordingKeeper {μ ω : Type} (resErr : μ → Option String)
    (wasmErr : AccAddress → ω → Option String) : Keeper (List (KeeperCall μ ω)) μ ω :=
  { SetResourceDependencyMapping := fun st m =>
      Except.ok (st ++ [KeeperCall.setResource m], resErr m),
    SetWasmDependencyMapping := fun st addr m =>
      Except.ok (st ++ [KeeperCall.setWasm addr m], wasmErr addr m) }

/-- A keeper over message mappings given as their list of access operations.
Its `SetResourceDependencyMapping` reads the last access operation of the
mapping, which panics (index out of range) when the mapping has none; every
other call is recorded and returns the nil error. -/
def strictKeeper : Keeper (List (KeeperCall (List Nat) Nat)) (List Nat) Nat :=
  { SetResourceDependencyMapping := fun st m =>
      match m.getLast? with
      | none => Except.error "runtime error: index out of range [-1]"
      | some _ => Except.ok (st ++ [KeeperCall.setResource m], none),
    SetWasmDependencyMapping := fun st addr m =>
      Except.ok (st ++ [KeeperCall.setWasm addr m], none) }

end accesscontrol

/-! ## Lemmas on Go maps -/

namespace cachemulti

namespace GoMap

theorem keys_cons {κ ν : Type} (e : κ × ν) (m : GoMap κ ν) :
    keys (e :: m) = e.1 :: keys m := rfl

theorem get?_eq_none_of_not_mem {κ ν : Type} [DecidableEq κ] (m : GoMap κ ν) (k : κ)
    (h : k ∉ keys m) : get? m k = none := by
  induction m with
  | nil => rfl
  | cons e rest ih =>
    obtain ⟨k', v⟩ := e
    simp only [keys_cons, List.mem_cons, not_or] at h
    have hne : ¬ k' = k := fun hk => h.1 hk.symm
    simp only [get?, hne, if_false]
    exact ih h.2

theorem get?_of_mem {κ ν : Type} [DecidableEq κ] (m : GoMap κ ν) (k : κ) (v : ν)
    (hnd : (keys m).Nodup) (h : (k, v) ∈ m) : get? m k = some v := by
  induction m with
  | nil => cases h
  | cons e rest ih =>
    obtain ⟨k', v'⟩ := e
    simp only [keys_cons, List.nodup_cons] at hnd
    rcases List.mem_cons.1 h with heq | hin
    · cases heq
      simp [get?]
    · have hk : k ∈ keys rest := List.mem_map.2 ⟨(k, v), hin, rfl⟩
      have hne : ¬ k' = k := fun hk' => hnd.1 (hk' ▸ hk)
      simp only [get?, hne, if_false]
      exact ih hnd.2 hin

theorem mem_of_get? {κ ν : Type} [DecidableEq κ] (m : GoMap κ ν) (k : κ) (v : ν)
    (h : get? m k = some v) : (k, v) ∈ m := by
  induction m with
  | nil => cases h
  | cons e rest ih =>
    obtain ⟨k', v'⟩ := e
    by_cases hk : k' = k
    · simp only [get?, hk, if_true, Option.some.injEq] at h
      subst hk; subst h
      exact List.mem_cons_self _ _
    · simp only [get?, hk, if_false] at h
      exact List.mem_cons_of_mem _ (ih h)

theorem keys_set {κ ν : Type} [DecidableEq κ] (m : GoMap κ ν) (k : κ) (v : ν) :
    keys (set m k v) = if k ∈ keys m then keys m else keys m ++ [k] := by
  induction m with
  | nil => simp [set, keys]
  | cons e rest ih =>
    obtain ⟨k', v'⟩ := e
    by_cases hk : k' = k
    · subst hk
      simp [set, keys]
    · have hk2 : ¬ k = k' := fun h => hk h.symm
      simp only [set, hk, if_false, keys_cons, ih, List.mem_cons, hk2, false_or]
      split <;> simp

theorem mem_keys_set {κ ν : Type} [DecidableEq κ] (m : GoMap κ ν) (k : κ) (v : ν)
    (x : κ) : x ∈ keys (set m k v) ↔ x ∈ keys m ∨ x = k := by
  rw [keys_set]
  split
  · constructor
    · exact fun h => Or.inl h
    · rintro (h | h)
      · exact h
      · subst h; assumption
  · simp

theorem nodup_keys_set {κ ν : Type} [DecidableEq κ] (m : GoMap κ ν) (k : κ) (v : ν)
    (h : (keys m).Nodup) : (keys (set m k v)).Nodup := by
  rw [keys_set]
  split
  · exact h
  · rename_i hk
    exact List.Nodup.append h (List.nodup_singleton k) (by simpa using hk)

theorem mem_set {κ ν : Type} [DecidableEq κ] (m : GoMap κ ν) (k : κ) (v : ν)
    (e : κ × ν) (h : e ∈ set m k v) : e ∈ m ∨ e = (k, v) := by
  induction m with
  | nil => simpa [set] using h
  | cons e' rest ih =>
    obtain ⟨k', v'⟩ := e'
    by_cases hk : k' = k
    · simp only [set, hk, if_true, List.mem_cons] at h
      rcases h with h | h
      · exact Or.inr h
      · exact Or.inl (List.mem_cons_of_mem _ h)
    · simp only [set, hk, if_false, List.mem_cons] at h
      rcases h with h | h
      · exact Or.inl (h ▸ List.mem_cons_self _ _)
      · rcases ih h with h1 | h1
        · exact Or.inl (List.mem_cons_of_mem _ h1)
        · exact Or.inr h1

theorem get?_set_self {κ ν : Type} [DecidableEq κ] (m : GoMap κ ν) (k : κ) (v : ν) :
    get? (set m k v) k = some v := by
  induction m with
  | nil => simp [set, get?]
  | cons e rest ih =>
    obtain ⟨k', v'⟩ := e
    by_cases hk : k' = k
    · simp [set, get?, hk]
    · simp [set, get?, hk, ih]

theorem get?_set_ne {κ ν : Type} [DecidableEq κ] (m : GoMap κ ν) (k x : κ) (v : ν)
    (h : k ≠ x) : get? (set m k v) x = get? m x := by
  induction m with
  | nil => simp [set, get?, h]
  | cons e rest ih =>
    obtain ⟨k', v'⟩ := e
    by_cases hk : k' = k
    · subst hk
      simp [set, get?, h]
    · by_cases hx : k' = x
      · subst hx
        simp [set, get?, hk]
      · simp [set, get?, hk, hx, ih]

end GoMap

end cachemulti

/-! ## Lemmas on the heap of stores -/

namespace cachemulti

theorem nodeAt_ge (kv : List Node) (a : Nat) (h : kv.length ≤ a) : nodeAt kv a = none := by
  induction kv with
  | nil => rfl
  | cons n older ih =>
    simp only [List.length_cons] at h
    have hne : ¬ a = older.length := by omega
    simp only [nodeAt, hne, if_false]
    exact ih (by omega)

theorem nodeAt_lt (kv : List Node) (a : Nat) (n : Node) (h : nodeAt kv a = some n) :
    a < kv.length := by
  by_contra hlt
  rw [nodeAt_ge kv a (by omega)] at h
  cases h

theorem nodeAt_cons_self (n : Node) (kv : List Node) : nodeAt (n :: kv) kv.length = some n := by
  simp [nodeAt]

theorem nodeAt_cons_lt (n : Node) (kv : List Node) (a : Nat) (h : a < kv.length) :
    nodeAt (n :: kv) a = nodeAt kv a := by
  have hne : ¬ a = kv.length := by omega
  simp [nodeAt, hne]

theorem nodeAt_append_lt (new kv : List Node) (a : Nat) (h : a < kv.length) :
    nodeAt (new ++ kv) a = nodeAt kv a := by
  induction new with
  | nil => rfl
  | cons n rest ih =>
    rw [List.cons_append, nodeAt_cons_lt _ _ _ (by simp; omega), ih]

theorem length_modifyAt (f : Node → Node) (kv : List Node) (b : Nat) :
    (modifyAt f kv b).length = kv.length := by
  induction kv with
  | nil => rfl
  | cons n older ih =>
    simp only [modifyAt]
    split <;> simp [ih]

theorem modifyAt_ge (f : Node → Node) (kv : List Node) (b : Nat) (h : kv.length ≤ b) :
    modifyAt f kv b = kv := by
  induction kv with
  | nil => rfl
  | cons n older ih =>
    simp only [List.length_cons] at h
    have hne : ¬ b = older.length := by omega
    simp only [modifyAt, hne, if_false]
    rw [ih (by omega)]

theorem nodeAt_modifyAt (f : Node → Node) (kv : List Node) (b a : Nat) :
    nodeAt (modifyAt f kv b) a = if a = b then (nodeAt kv a).map f else nodeAt kv a := by
  induction kv with
  | nil => simp [modifyAt, nodeAt]
  | cons n older ih =>
    by_cases hb : b = older.length
    · by_cases ha : a = older.length
      · simp [modifyAt, nodeAt, hb, ha]
      · have hab : ¬ a = b := by omega
        simp [modifyAt, nodeAt, hb, ha]
    · by_cases ha : a = older.length
      · subst ha
        have hab : ¬ older.length = b := fun h => hb h.symm
        simp [modifyAt, nodeAt, hb, length_modifyAt, hab]
      · simp [modifyAt, nodeAt, hb, ha, length_modifyAt, ih]

theorem nodeAt_modifyAt_ne (f : Node → Node) (kv : List Node) (b a : Nat) (h : a ≠ b) :
    nodeAt (modifyAt f kv b) a = nodeAt kv a := by
  rw [nodeAt_modifyAt, if_neg h]

end cachemulti

namespace cachekv

open cachemulti

theorem getFrom_ge (kv : List Node) (a : Nat) (k : Bytes) (h : kv.length ≤ a) :
    getFrom kv a k = none := by
  induction kv with
  | nil => rfl
  | cons n older ih =>
    simp only [List.length_cons] at h
    have hne : ¬ a = older.length := by omega
    simp only [getFrom, hne, if_false]
    exact ih (by omega)

theorem getFrom_cons_lt (n : Node) (kv : List Node) (a : Nat) (k : Bytes)
    (h : a < kv.length) : getFrom (n :: kv) a k = getFrom kv a k := by
  have hne : ¬ a = kv.length := by omega
  simp [getFrom, hne]

/-- Reading unfolds along the node at the address read. -/
theorem getFrom_eq (kv : List Node) (a : Nat) (k : Bytes) :
    getFrom kv a k =
      match nodeAt kv a with
      | none => none
      | some (Node.db data) => data.get? k
      | some (Node.overlay o) =>
        match o.cache.get? k with
        | some e => e
        | none => if o.parent < a then getFrom kv o.parent k else none := by
  induction kv with
  | nil => rfl
  | cons n older ih =>
    by_cases ha : a = older.length
    · subst ha
      cases n with
      | db data => simp [getFrom, nodeAt]
      | overlay o =>
        simp only [getFrom, nodeAt, if_true]
        cases o.cache.get? k with
        | some e => rfl
        | none =>
          simp only
          by_cases hp : o.parent < older.length
          · have hne : ¬ o.parent = older.length := by omega
            simp [hp, hne]
          · simp only [hp, if_false]
            exact getFrom_ge older o.parent k (by omega)
    · have h1 : getFrom (n :: older) a k = getFrom older a k := by simp [getFrom, ha]
      have h2 : nodeAt (n :: older) a = nodeAt older a := by simp [nodeAt, ha]
      rw [h1, h2, ih]
      cases hn : nodeAt older a with
      | none => rfl
      | some m =>
        cases m with
        | db data => rfl
        | overlay o =>
          simp only
          cases o.cache.get? k with
          | some e => rfl
          | none =>
            simp only
            by_cases hp : o.parent < a
            · have hlt := nodeAt_lt _ _ _ hn
              rw [if_pos hp, if_pos hp, getFrom_cons_lt _ _ _ _ (by omega)]
            · simp [hp]

/-- A read at an address depends only on the nodes at that address and below. -/
theorem getFrom_congr (kv kv' : List Node) (k : Bytes) (a : Nat)
    (h : ∀ a', a' ≤ a → nodeAt kv' a' = nodeAt kv a') :
    getFrom kv' a k = getFrom kv a k := by
  induction a using Nat.strong_induction_on with
  | _ a ih =>
    rw [getFrom_eq kv' a k, getFrom_eq kv a k, h a (le_refl a)]
    cases nodeAt kv a with
    | none => rfl
    | some n =>
      cases n with
      | db data => rfl
      | overlay o =>
        simp only
        cases o.cache.get? k with
        | some e => rfl
        | none =>
          simp only
          by_cases hp : o.parent < a
          · simp only [hp, if_true]
            exact ih o.parent hp (fun a' ha' => h a' (by omega))
          · simp [hp]

theorem Write_calls (s : State) (a : Nat) :
    (Write s a).calls = s.calls ++ [Call.write a] := by
  unfold Write
  simp only
  split <;> rfl

end cachekv

/-! ## Accessors, refusals and the commit order -/

namespace cachemulti

theorem Write_fold_calls (l : GoMap StoreKey Nat) (s : State) :
    (l.foldl (fun st e => cachekv.Write st e.2) s).calls
      = s.calls ++ l.map (fun e => Call.write e.2) := by
  induction l generalizing s with
  | nil => simp
  | cons e rest ih =>
    simp only [List.foldl_cons, List.map_cons]
    rw [ih, cachekv.Write_calls]
    simp

theorem Write_calls_eq (s : State) (cms : Store) :
    (cms.Write s).calls
      = s.calls ++ Call.write cms.db :: cms.stores.map (fun e => Call.write e.2) := by
  unfold Store.Write
  rw [Write_fold_calls, cachekv.Write_calls]
  simp

theorem writeCalls_eq (s : State) (cms : Store) :
    cms.writeCalls s = Call.write cms.db :: cms.stores.map (fun e => Call.write e.2) := by
  unfold Store.writeCalls
  rw [Write_calls_eq]
  simp

/-- C1: `GetStore` and `GetKVStore` agree; they panic exactly when the key is
nil or the substore map has no overlay under the key, and otherwise return
exactly the overlay registered under the key; with an empty substore map they
panic for every key. -/
theorem GetStore_GetKVStore_registered (cms : Store) (key : StoreKey) :
    cms.GetKVStore key = cms.GetStore key ∧
    (cms.GetStore key = Except.error notRegistered ↔
      (key = StoreKey.nil ∨ cms.stores.get? key = none)) ∧
    (∀ a, cms.GetStore key = Except.ok a ↔
      (key ≠ StoreKey.nil ∧ cms.stores.get? key = some a)) ∧
    (∀ msg, cms.GetStore key = Except.error msg ↔
      (msg = notRegistered ∧ (key = StoreKey.nil ∨ cms.stores.get? key = none))) ∧
    ({ cms with stores := [] } : Store).GetStore key = Except.error notRegistered ∧
    ({ cms with stores := [] } : Store).GetKVStore key = Except.error notRegistered := by
  refine ⟨rfl, ?_, ?_, ?_, rfl, rfl⟩
  · unfold Store.GetStore
    cases hg : cms.stores.get? key with
    | none => simp
    | some a =>
      by_cases hk : key = StoreKey.nil
      · simp [hk]
      · simp [hk]
  · intro a
    unfold Store.GetStore
    cases hg : cms.stores.get? key with
    | none => simp
    | some b =>
      by_cases hk : key = StoreKey.nil
      · simp [hk]
      · simp [hk]
  · intro msg
    unfold Store.GetStore
    cases hg : cms.stores.get? key with
    | none =>
      simp only [or_true, and_true]
      constructor
      · intro h; cases h; rfl
      · intro h; rw [h]
    | some b =>
      by_cases hk : key = StoreKey.nil
      · simp only [hk, if_true, true_or, and_true]
        constructor
        · intro h; cases h; rfl
        · intro h; rw [h]
      · simp [hk]

/-- C4: `Write` on a multi-store calls `Write` on the base overlay first and
then on every substore overlay of the substore map, once per entry, in the
order in which the map is visited; these are all the calls it makes. -/
theorem Write_base_then_substores (s : State) (cms : Store) :
    (cms.Write s).calls = s.calls ++ cms.writeCalls s ∧
    cms.writeCalls s = Call.write cms.db :: cms.stores.map (fun e => Call.write e.2) ∧
    (cms.writeCalls s).head? = some (Call.write cms.db) ∧
    (cms.writeCalls s).tail.length = cms.stores.length := by
  rw [writeCalls_eq, Write_calls_eq]
  simp

/-- C9: `CacheMultiStoreWithVersion` panics for every store, version and
second argument; it returns neither a store nor an error value. -/
theorem CacheMultiStoreWithVersion_panics (cms : Store) (version size : Int) :
    cms.CacheMultiStoreWithVersion version size
      = Except.error "cannot branch cached multi-store with a version" ∧
    ∀ r, cms.CacheMultiStoreWithVersion version size ≠ Except.ok r := by
  constructor
  · rfl
  · intro r h
    cases h

/-- C10: `GetWorkingHash` panics for every store; it never returns a hash. -/
theorem GetWorkingHash_panics (cms : Store) :
    cms.GetWorkingHash
      = Except.error "should never attempt to get working hash from cache multi store" ∧
    ∀ hash, cms.GetWorkingHash ≠ Except.ok hash := by
  constructor
  · rfl
  · intro r h
    cases h

end cachemulti

/-! ## The constructor: key set -/

namespace cachemulti

/-- C5 (as amended): `Write` on a multi-store calls `Write` on the base overlay
before it calls `Write` on any substore overlay. -/
theorem Write_base_before_each_substore (s : State) (cms : Store) (e : StoreKey × Nat)
    (he : e ∈ cms.stores) :
    calledBefore (cms.writeCalls s) (Call.write cms.db) (Call.write e.2) := by
  rw [writeCalls_eq]
  obtain ⟨n, hn⟩ := List.mem_iff_getElem?.1 he
  refine ⟨0, n + 1, Nat.succ_pos n, by simp, ?_⟩
  simp [List.getElem?_cons_succ, List.getElem?_map, hn]

/-- Witness of C5 (as amended) on the branch of the scenario. -/
theorem Write_base_before_each_substore_witness :
    (bank, 5) ∈ (branch none).1.stores ∧
    calledBefore ((branch none).1.writeCalls (branch none).2)
      (Call.write (branch none).1.db) (Call.write 5) :=
  ⟨by decide,
   Write_base_before_each_substore (branch none).2 (branch none).1 (bank, 5) (by decide)⟩

/-- C5 (as stated) fails on the branch of the scenario: the `Write` of the
substore overlay "bank" is not called before the `Write` of the base
overlay. -/
theorem Write_substores_before_base_fails :
    ¬ (∀ e ∈ (branch none).1.stores,
        calledBefore ((branch none).1.writeCalls (branch none).2)
          (Call.write e.2) (Call.write (branch none).1.db)) := by
  intro h
  have hcalls : (branch none).1.writeCalls (branch none).2
      = [Call.write 4, Call.write 5] := by decide
  have hdb : (branch none).1.db = 4 := by decide
  obtain ⟨i, j, hij, hi, hj⟩ := h (bank, 5) (by decide)
  rw [hcalls] at hi hj
  rw [hdb] at hj
  match j, hij, hj with
  | 0, hij, _ => omega
  | 1, _, hj => simp at hj
  | (j + 2), _, hj => simp at hj

theorem listenersAt_kv (s : State) (kv : List Node) (cms : Store) (key : StoreKey) :
    cms.listenersAt { s with kv := kv } key = cms.listenersAt s key := rfl

theorem ListeningEnabled_kv (s : State) (kv : List Node) (cms : Store) (key : StoreKey) :
    cms.ListeningEnabled { s with kv := kv } key = cms.ListeningEnabled s key := rfl

/-- One round of the loop of the constructor, spelled out. -/
theorem step_eq (limit : Int) (acc : Store × State) (e : StoreKey × Nat) :
    NewFromKVStore.step limit acc e =
      if acc.1.ListeningEnabled acc.2 e.1 then
        ({ acc.1 with stores := acc.1.stores.set e.1 (acc.2.kv.length + 1) },
         { acc.2 with kv :=
            listenedWrap acc.2.kv.length e.1 ((acc.1.listenersAt acc.2 e.1).getD []) limit
              :: tracedWrap e.2 e.1 acc.1.traceWriter acc.1.traceContext limit
              :: acc.2.kv })
      else
        ({ acc.1 with stores := acc.1.stores.set e.1 acc.2.kv.length },
         { acc.2 with kv :=
            tracedWrap e.2 e.1 acc.1.traceWriter acc.1.traceContext limit :: acc.2.kv }) := by
  obtain ⟨cms, s⟩ := acc
  cases hL : cms.ListeningEnabled s e.1 <;> cases hw : cms.traceWriter <;>
    simp [NewFromKVStore.step, Store.TracingEnabled, hw, hL, cachekv.CacheWrap,
      cachekv.CacheWrapWithTrace, cachekv.CacheWrapWithListeners, cachekv.NewStore, alloc,
      ListeningEnabled_kv, listenersAt_kv, tracedWrap, listenedWrap]

theorem step_stores (limit : Int) (acc : Store × State) (e : StoreKey × Nat) :
    ∃ a, (NewFromKVStore.step limit acc e).1.stores = acc.1.stores.set e.1 a := by
  rw [step_eq]
  split
  · exact ⟨_, rfl⟩
  · exact ⟨_, rfl⟩

theorem fold_keys (limit : Int) (l : GoMap StoreKey Nat) (acc : Store × State) :
    (∀ k, k ∈ (l.foldl (NewFromKVStore.step limit) acc).1.stores.keys
        ↔ k ∈ acc.1.stores.keys ∨ k ∈ l.keys) ∧
    (acc.1.stores.keys.Nodup →
      (l.foldl (NewFromKVStore.step limit) acc).1.stores.keys.Nodup) := by
  induction l generalizing acc with
  | nil => simp [GoMap.keys]
  | cons e rest ih =>
    obtain ⟨a, ha⟩ := step_stores limit acc e
    obtain ⟨h1, h2⟩ := ih (NewFromKVStore.step limit acc e)
    simp only [List.foldl_cons]
    constructor
    · intro k
      rw [h1 k, ha, GoMap.mem_keys_set, GoMap.keys_cons, List.mem_cons, or_assoc]
    · intro hnd
      apply h2
      rw [ha]
      exact GoMap.nodup_keys_set _ _ _ hnd

/-- The key set of the substore map the constructor returns. -/
theorem NewFromKVStore_key_set_aux (s : State) (store : Nat) (stores : GoMap StoreKey Nat)
    (keys : Option (GoMap String StoreKey)) (traceWriter : Option Writer)
    (traceContext : Option Nat) (listeners : Option Nat) (cacheLimit : Int) :
    (∀ k, k ∈ (NewFromKVStore s store stores keys traceWriter traceContext listeners
        cacheLimit).1.stores.keys ↔ k ∈ stores.keys) ∧
    (NewFromKVStore s store stores keys traceWriter traceContext listeners
        cacheLimit).1.stores.keys.Nodup := by
  have h := fold_keys cacheLimit stores
    (NewFromKVStore.init s store keys traceWriter traceContext listeners cacheLimit)
  constructor
  · intro k
    have := h.1 k
    simpa [GoMap.keys, NewFromKVStore.init] using this
  · exact h.2 (by simp [GoMap.keys, NewFromKVStore.init])

/-- C6: the substore map of the store returned by `NewFromKVStore`, and by
`NewStore`, has exactly the keys of the input wrappers map, each once. -/
theorem NewFromKVStore_key_set (s : State) (store : Nat) (stores : GoMap StoreKey Nat)
    (keys : Option (GoMap String StoreKey)) (traceWriter : Option Writer)
    (traceContext : Option Nat) (listeners : Option Nat) (cacheLimit : Int) :
    (∀ k, k ∈ (NewFromKVStore s store stores keys traceWriter traceContext listeners
        cacheLimit).1.stores.keys ↔ k ∈ stores.keys) ∧
    (NewFromKVStore s store stores keys traceWriter traceContext listeners
        cacheLimit).1.stores.keys.Nodup ∧
    (∀ k, k ∈ (NewStore s store stores keys traceWriter traceContext listeners
        cacheLimit).1.stores.keys ↔ k ∈ stores.keys) ∧
    (NewStore s store stores keys traceWriter traceContext listeners
        cacheLimit).1.stores.keys.Nodup := by
  have h := NewFromKVStore_key_set_aux s store stores keys traceWriter traceContext
    listeners cacheLimit
  exact ⟨h.1, h.2, h.1, h.2⟩

end cachemulti

/-! ## The constructor: the overlay stored under each key -/

namespace cachemulti

theorem Grows.refl (acc : Store × State) : Grows acc acc :=
  ⟨rfl, rfl, rfl, rfl, rfl, rfl, rfl, rfl, [], rfl⟩

theorem Grows.trans {a b c : Store × State} (h1 : Grows a b) (h2 : Grows b c) :
    Grows a c := by
  obtain ⟨a1, a2, a3, a4, a5, a6, a7, a8, n1, a9⟩ := h1
  obtain ⟨b1, b2, b3, b4, b5, b6, b7, b8, n2, b9⟩ := h2
  refine ⟨b1.trans a1, b2.trans a2, b3.trans a3, b4.trans a4, b5.trans a5, b6.trans a6,
    b7.trans a7, b8.trans a8, n2 ++ n1, ?_⟩
  rw [b9, a9, List.append_assoc]

theorem Grows.length_le {a b : Store × State} (h : Grows a b) :
    a.2.kv.length ≤ b.2.kv.length := by
  obtain ⟨_, _, _, _, _, _, _, _, n, h9⟩ := h
  rw [h9, List.length_append]
  omega

theorem Grows.nodeAt_eq {a b : Store × State} (h : Grows a b) (x : Nat)
    (hx : x < a.2.kv.length) : nodeAt b.2.kv x = nodeAt a.2.kv x := by
  obtain ⟨_, _, _, _, _, _, _, _, n, h9⟩ := h
  rw [h9, nodeAt_append_lt _ _ _ hx]

theorem Grows.listenersAt_eq {a b : Store × State} (h : Grows a b) (key : StoreKey) :
    b.1.listenersAt b.2 key = a.1.listenersAt a.2 key := by
  obtain ⟨_, _, _, _, h5, _, h7, _, _⟩ := h
  unfold Store.listenersAt
  rw [h5, h7]

theorem Grows.enabledListeners_eq {a b : Store × State} (h : Grows a b) (key : StoreKey) :
    b.1.enabledListeners b.2 key = a.1.enabledListeners a.2 key := by
  unfold Store.enabledListeners Store.ListeningEnabled
  rw [h.listenersAt_eq key]

theorem step_grows (limit : Int) (acc : Store × State) (e : StoreKey × Nat) :
    Grows acc (NewFromKVStore.step limit acc e) := by
  rw [step_eq]
  split
  · exact ⟨rfl, rfl, rfl, rfl, rfl, rfl, rfl, rfl, [_, _], rfl⟩
  · exact ⟨rfl, rfl, rfl, rfl, rfl, rfl, rfl, rfl, [_], rfl⟩

theorem fold_grows (limit : Int) (l : GoMap StoreKey Nat) (acc : Store × State) :
    Grows acc (l.foldl (NewFromKVStore.step limit) acc) := by
  induction l generalizing acc with
  | nil => exact Grows.refl acc
  | cons e rest ih => exact (step_grows limit acc e).trans (ih _)

theorem fold_get?_of_not_mem (limit : Int) (l : GoMap StoreKey Nat) (acc : Store × State)
    (k : StoreKey) (hk : k ∉ l.keys) :
    (l.foldl (NewFromKVStore.step limit) acc).1.stores.get? k = acc.1.stores.get? k := by
  induction l generalizing acc with
  | nil => rfl
  | cons e rest ih =>
    simp only [GoMap.keys_cons, List.mem_cons, not_or] at hk
    obtain ⟨a, ha⟩ := step_stores limit acc e
    simp only [List.foldl_cons]
    rw [ih _ hk.2, ha, GoMap.get?_set_ne _ _ _ _ (fun h => hk.1 h.symm)]

/-- After one round of the loop the overlay stored under the entry's key is the
specified one. -/
theorem step_stored (limit : Int) (acc : Store × State) (e : StoreKey × Nat) :
    ∃ a, (NewFromKVStore.step limit acc e).1.stores.get? e.1 = some a ∧
      acc.2.kv.length ≤ a ∧
      StoredOverlay (NewFromKVStore.step limit acc e).2.kv a e.2 e.1 acc.1.traceWriter
        acc.1.traceContext (acc.1.enabledListeners acc.2 e.1) limit := by
  rw [step_eq]
  unfold Store.enabledListeners
  by_cases hL : acc.1.ListeningEnabled acc.2 e.1 = true
  · simp only [hL, if_true]
    refine ⟨acc.2.kv.length + 1, GoMap.get?_set_self _ _ _, Nat.le_succ _, ?_⟩
    refine ⟨acc.2.kv.length, ?_, ?_⟩
    · exact nodeAt_cons_self _ (_ :: acc.2.kv)
    · rw [nodeAt_cons_lt _ _ _ (by simp)]
      exact nodeAt_cons_self _ _
  · simp only [hL, if_false]
    refine ⟨acc.2.kv.length, GoMap.get?_set_self _ _ _, le_refl _, ?_⟩
    exact nodeAt_cons_self _ _

theorem StoredOverlay.of_grows {a b : Store × State} (h : Grows a b) {x w : Nat}
    {key : StoreKey} {tw : Option Writer} {tc : Option Nat}
    {ls : Option (List WriteListener)} {limit : Int}
    (hs : StoredOverlay a.2.kv x w key tw tc ls limit) :
    StoredOverlay b.2.kv x w key tw tc ls limit := by
  cases ls with
  | none =>
    simp only [StoredOverlay] at hs ⊢
    rw [h.nodeAt_eq x (nodeAt_lt _ _ _ hs)]
    exact hs
  | some l =>
    simp only [StoredOverlay] at hs ⊢
    obtain ⟨i, h1, h2⟩ := hs
    refine ⟨i, ?_, ?_⟩
    · rw [h.nodeAt_eq x (nodeAt_lt _ _ _ h1)]
      exact h1
    · rw [h.nodeAt_eq i (nodeAt_lt _ _ _ h2)]
      exact h2

theorem fold_stored (limit : Int) (l : GoMap StoreKey Nat) (acc : Store × State)
    (k : StoreKey) (w : Nat) (hnd : l.keys.Nodup) (hmem : (k, w) ∈ l) :
    ∃ a, (l.foldl (NewFromKVStore.step limit) acc).1.stores.get? k = some a ∧
      acc.2.kv.length ≤ a ∧
      StoredOverlay (l.foldl (NewFromKVStore.step limit) acc).2.kv a w k acc.1.traceWriter
        acc.1.traceContext (acc.1.enabledListeners acc.2 k) limit := by
  induction l generalizing acc with
  | nil => cases hmem
  | cons e rest ih =>
    simp only [GoMap.keys_cons, List.nodup_cons] at hnd
    simp only [List.foldl_cons]
    rcases List.mem_cons.1 hmem with heq | hin
    · subst heq
      obtain ⟨a, h1, h2, h3⟩ := step_stored limit acc (k, w)
      refine ⟨a, ?_, h2, ?_⟩
      · rw [fold_get?_of_not_mem limit rest _ k hnd.1]
        exact h1
      · exact StoredOverlay.of_grows (fold_grows limit rest _) h3
    · have hg := step_grows limit acc e
      obtain ⟨a, h1, h2, h3⟩ := ih (NewFromKVStore.step limit acc e) hnd.2 hin
      refine ⟨a, h1, le_trans hg.length_le h2, ?_⟩
      rw [hg.2.2.1, hg.2.2.2.1, hg.enabledListeners_eq k] at h3
      exact h3

end cachemulti

namespace cachemulti

theorem NewFromKVStore_grows (s : State) (store : Nat) (stores : GoMap StoreKey Nat)
    (keys : Option (GoMap String StoreKey)) (traceWriter : Option Writer)
    (traceContext : Option Nat) (listeners : Option Nat) (cacheLimit : Int) :
    Grows (NewFromKVStore.init s store keys traceWriter traceContext listeners cacheLimit)
      (NewFromKVStore s store stores keys traceWriter traceContext listeners cacheLimit) :=
  fold_grows cacheLimit stores _

/-- The overlay stored under a key of the wrappers map, and its freshness. -/
theorem stored_overlay_aux (s : State) (store : Nat)
    (stores : GoMap StoreKey Nat) (keys : Option (GoMap String StoreKey))
    (traceWriter : Option Writer) (traceContext : Option Nat) (listeners : Option Nat)
    (cacheLimit : Int) (k : StoreKey) (w : Nat)
    (hnd : stores.keys.Nodup) (hmem : (k, w) ∈ stores) :
    ∃ a, (NewFromKVStore s store stores keys traceWriter traceContext listeners
        cacheLimit).1.stores.get? k = some a ∧ s.kv.length < a ∧
      if (NewFromKVStore s store stores keys traceWriter traceContext listeners
          cacheLimit).1.ListeningEnabled s k then
        ∃ i, nodeAt (NewFromKVStore s store stores keys traceWriter traceContext listeners
              cacheLimit).2.kv a
            = some (listenedWrap i k
                (((NewFromKVStore s store stores keys traceWriter traceContext listeners
                  cacheLimit).1.listenersAt s k).getD []) cacheLimit) ∧
          nodeAt (NewFromKVStore s store stores keys traceWriter traceContext listeners
              cacheLimit).2.kv i
            = some (tracedWrap w k traceWriter traceContext cacheLimit)
      else
        nodeAt (NewFromKVStore s store stores keys traceWriter traceContext listeners
            cacheLimit).2.kv a
          = some (tracedWrap w k traceWriter traceContext cacheLimit) := by
  have hg := NewFromKVStore_grows s store stores keys traceWriter traceContext listeners
    cacheLimit
  obtain ⟨a, h1, h2, h3⟩ := fold_stored cacheLimit stores
    (NewFromKVStore.init s store keys traceWriter traceContext listeners cacheLimit)
    k w hnd hmem
  refine ⟨a, h1, h2, ?_⟩
  have hl : (NewFromKVStore s store stores keys traceWriter traceContext listeners
      cacheLimit).1.listenersAt s k
      = (NewFromKVStore.init s store keys traceWriter traceContext listeners
          cacheLimit).1.listenersAt s k := by
    unfold Store.listenersAt
    rw [hg.2.2.2.2.1]
  have hL : (NewFromKVStore s store stores keys traceWriter traceContext listeners
      cacheLimit).1.ListeningEnabled s k
      = (NewFromKVStore.init s store keys traceWriter traceContext listeners
          cacheLimit).1.ListeningEnabled s k := by
    unfold Store.ListeningEnabled
    rw [hl]
  rw [hL, hl]
  have e1 : ∀ key, (NewFromKVStore.init s store keys traceWriter traceContext listeners
      cacheLimit).1.listenersAt (NewFromKVStore.init s store keys traceWriter traceContext
        listeners cacheLimit).2 key
      = (NewFromKVStore.init s store keys traceWriter traceContext listeners
          cacheLimit).1.listenersAt s key := fun _ => rfl
  have e2 : ∀ key, (NewFromKVStore.init s store keys traceWriter traceContext listeners
      cacheLimit).1.ListeningEnabled (NewFromKVStore.init s store keys traceWriter
        traceContext listeners cacheLimit).2 key
      = (NewFromKVStore.init s store keys traceWriter traceContext listeners
          cacheLimit).1.ListeningEnabled s key := fun _ => rfl
  have e3 : (NewFromKVStore.init s store keys traceWriter traceContext listeners
      cacheLimit).1.traceWriter = traceWriter := rfl
  have e4 : (NewFromKVStore.init s store keys traceWriter traceContext listeners
      cacheLimit).1.traceContext = traceContext := rfl
  simp only [Store.enabledListeners, e1, e2, e3, e4] at h3
  split
  · rename_i hen
    rw [if_pos hen] at h3
    exact h3
  · rename_i hen
    rw [if_neg hen] at h3
    exact h3

/-- C7: for every entry `(k, w)` of the wrappers map given to `NewFromKVStore`,
the overlay stored under `k` is the trace cache-wrap of `w` when a trace writer
is set and the plain cache-wrap of `w` otherwise, and, when listening is
enabled for `k`, the listener cache-wrap of that overlay: the listener overlay
wraps the traced one, which wraps `w`. -/
theorem NewFromKVStore_stored_overlay (s : State) (store : Nat)
    (stores : GoMap StoreKey Nat) (keys : Option (GoMap String StoreKey))
    (traceWriter : Option Writer) (traceContext : Option Nat) (listeners : Option Nat)
    (cacheLimit : Int) (k : StoreKey) (w : Nat)
    (hnd : stores.keys.Nodup) (hmem : (k, w) ∈ stores) :
    ∃ a, (NewFromKVStore s store stores keys traceWriter traceContext listeners
        cacheLimit).1.stores.get? k = some a ∧
      if (NewFromKVStore s store stores keys traceWriter traceContext listeners
          cacheLimit).1.ListeningEnabled s k then
        ∃ i, nodeAt (NewFromKVStore s store stores keys traceWriter traceContext listeners
              cacheLimit).2.kv a
            = some (listenedWrap i k
                (((NewFromKVStore s store stores keys traceWriter traceContext listeners
                  cacheLimit).1.listenersAt s k).getD []) cacheLimit) ∧
          nodeAt (NewFromKVStore s store stores keys traceWriter traceContext listeners
              cacheLimit).2.kv i
            = some (tracedWrap w k traceWriter traceContext cacheLimit)
      else
        nodeAt (NewFromKVStore s store stores keys traceWriter traceContext listeners
            cacheLimit).2.kv a
          = some (tracedWrap w k traceWriter traceContext cacheLimit) := by
  obtain ⟨a, h1, _, h3⟩ := stored_overlay_aux s store stores keys traceWriter traceContext
    listeners cacheLimit k w hnd hmem
  exact ⟨a, h1, h3⟩

/-- Witness of C7: the root multi-store of the scenario, with the listener
registry, stores for "bank" the listener overlay 4 over the plain overlay 3
over the bank module store 0. -/
theorem NewFromKVStore_stored_overlay_witness :
    (GoMap.keys [(bank, 0)]).Nodup ∧ (bank, 0) ∈ ([(bank, 0)] : GoMap StoreKey Nat) ∧
    ∃ a, (NewFromKVStore genesis 1 [(bank, 0)] none none none (some 0) 0).1.stores.get? bank
        = some a ∧
      if (NewFromKVStore genesis 1 [(bank, 0)] none none none (some 0)
          0).1.ListeningEnabled genesis bank then
        ∃ i, nodeAt (NewFromKVStore genesis 1 [(bank, 0)] none none none (some 0) 0).2.kv a
            = some (listenedWrap i bank
                (((NewFromKVStore genesis 1 [(bank, 0)] none none none (some 0)
                  0).1.listenersAt genesis bank).getD []) 0) ∧
          nodeAt (NewFromKVStore genesis 1 [(bank, 0)] none none none (some 0) 0).2.kv i
            = some (tracedWrap 0 bank none none 0)
      else
        nodeAt (NewFromKVStore genesis 1 [(bank, 0)] none none none (some 0) 0).2.kv a
          = some (tracedWrap 0 bank none none 0) :=
  ⟨by decide, by decide,
   NewFromKVStore_stored_overlay genesis 1 [(bank, 0)] none none none (some 0) 0 bank 0
     (by decide) (by decide)⟩

end cachemulti

/-! ## Branching -/

namespace cachemulti

theorem GoMap.set_of_not_mem {κ ν : Type} [DecidableEq κ] (m : GoMap κ ν) (k : κ) (v : ν)
    (h : k ∉ GoMap.keys m) : GoMap.set m k v = m ++ [(k, v)] := by
  induction m with
  | nil => rfl
  | cons e rest ih =>
    obtain ⟨k', v'⟩ := e
    simp only [GoMap.keys_cons, List.mem_cons, not_or] at h
    have hne : ¬ k' = k := fun hk => h.1 hk.symm
    simp only [GoMap.set, hne, if_false, List.cons_append]
    rw [ih h.2]

/-- Copying a well-formed map entry by entry gives the same map. -/
theorem copy_eq (l acc : GoMap StoreKey Nat) (hnd : (GoMap.keys (acc ++ l)).Nodup) :
    l.foldl (fun m e => GoMap.set m e.1 e.2) acc = acc ++ l := by
  induction l generalizing acc with
  | nil => simp
  | cons e rest ih =>
    have hsplit : acc ++ e :: rest = (acc ++ [e]) ++ rest := by simp
    have hk : e.1 ∉ GoMap.keys acc := by
      intro hmem
      simp only [GoMap.keys, List.map_append, List.map_cons] at hnd hmem
      have := (List.nodup_append.1 hnd).2.2
      exact this hmem (List.mem_cons_self _ _)
    simp only [List.foldl_cons]
    rw [GoMap.set_of_not_mem acc e.1 e.2 hk, hsplit]
    apply ih
    rw [← hsplit]
    exact hnd

/-- Every entry of the copy of a map is an entry of the map. -/
theorem copy_mem (l acc : GoMap StoreKey Nat) (e : StoreKey × Nat)
    (h : e ∈ l.foldl (fun m e => GoMap.set m e.1 e.2) acc) : e ∈ acc ∨ e ∈ l := by
  induction l generalizing acc with
  | nil => exact Or.inl h
  | cons x rest ih =>
    simp only [List.foldl_cons] at h
    rcases ih _ h with h1 | h1
    · rcases GoMap.mem_set _ _ _ _ h1 with h2 | h2
      · exact Or.inl h2
      · exact Or.inr (h2 ▸ List.mem_cons_self _ _)
    · exact Or.inr (List.mem_cons_of_mem _ h1)

theorem CacheMultiStore_eq (s : State) (cms : Store) (size : Int)
    (hnd : cms.stores.keys.Nodup) :
    cms.CacheMultiStore s size
      = NewFromKVStore s cms.db cms.stores none cms.traceWriter cms.traceContext
          cms.listeners size := by
  unfold Store.CacheMultiStore newCacheMultiStoreFromCMS
  simp only
  rw [copy_eq cms.stores [] (by simpa using hnd)]
  rfl

/-- The shape of a branch: a fresh base overlay over the base overlay of the
store branched from, the same keys, under each key the overlay the constructor
builds from the overlay the store holds under that key, and the tracing and
listener configuration of the store. -/
theorem CacheMultiStore_shape (s : State) (P : Store) (n : Int)
    (hnd : P.stores.keys.Nodup) :
    (P.CacheMultiStore s n).1.db = s.kv.length ∧
    nodeAt s.kv (P.CacheMultiStore s n).1.db = none ∧
    nodeAt (P.CacheMultiStore s n).2.kv (P.CacheMultiStore s n).1.db
      = some (Node.overlay { parent := P.db, deco := Deco.plain, storeKey := StoreKey.nil,
                             limit := n, cache := [] }) ∧
    (∀ k, k ∈ (P.CacheMultiStore s n).1.stores.keys ↔ k ∈ P.stores.keys) ∧
    (P.CacheMultiStore s n).1.stores.keys.Nodup ∧
    (∀ k p, P.stores.get? k = some p →
      ∃ b, (P.CacheMultiStore s n).1.stores.get? k = some b ∧ s.kv.length < b ∧
        if P.ListeningEnabled s k then
          ∃ i, nodeAt (P.CacheMultiStore s n).2.kv b
              = some (listenedWrap i k ((P.listenersAt s k).getD []) n) ∧
            nodeAt (P.CacheMultiStore s n).2.kv i
              = some (tracedWrap p k P.traceWriter P.traceContext n)
        else
          nodeAt (P.CacheMultiStore s n).2.kv b
            = some (tracedWrap p k P.traceWriter P.traceContext n)) ∧
    (P.CacheMultiStore s n).1.traceWriter = P.traceWriter ∧
    (P.CacheMultiStore s n).1.traceContext = P.traceContext ∧
    (P.CacheMultiStore s n).1.listeners = P.listeners ∧
    (P.CacheMultiStore s n).1.keys = none := by
  rw [CacheMultiStore_eq s P n hnd]
  have hg := NewFromKVStore_grows s P.db P.stores none P.traceWriter P.traceContext
    P.listeners n
  have hk := NewFromKVStore_key_set_aux s P.db P.stores none P.traceWriter P.traceContext
    P.listeners n
  have hnode := hg.nodeAt_eq s.kv.length
    (by simp [NewFromKVStore.init, cachekv.NewStore, alloc])
  obtain ⟨g1, g2, g3, g4, g5, _, _, _, _⟩ := hg
  have hdb : (NewFromKVStore s P.db P.stores none P.traceWriter P.traceContext
      P.listeners n).1.db = s.kv.length := g1
  refine ⟨hdb, nodeAt_ge _ _ (by rw [hdb]), ?_, hk.1, hk.2, ?_, g3, g4, g5, g2⟩
  · rw [hdb, hnode]
    exact nodeAt_cons_self _ _
  · intro k p hp
    obtain ⟨b, h1, h2, h3⟩ := stored_overlay_aux s P.db P.stores none P.traceWriter
      P.traceContext P.listeners n k p hnd (GoMap.mem_of_get? _ _ _ hp)
    refine ⟨b, h1, h2, ?_⟩
    have hl : (NewFromKVStore s P.db P.stores none P.traceWriter P.traceContext
        P.listeners n).1.listenersAt s k = P.listenersAt s k := by
      unfold Store.listenersAt
      rw [g5]
      rfl
    have hL : (NewFromKVStore s P.db P.stores none P.traceWriter P.traceContext
        P.listeners n).1.ListeningEnabled s k = P.ListeningEnabled s k := by
      unfold Store.ListeningEnabled
      rw [hl]
    rw [hL, hl] at h3
    exact h3

end cachemulti

/-! ## Isolation of a branch -/

namespace cachemulti

theorem GetKVStore_mem (cms : Store) (key : StoreKey) (a : Nat)
    (h : cms.GetKVStore key = Except.ok a) : (key, a) ∈ cms.stores := by
  unfold Store.GetKVStore at h
  cases hg : cms.stores.get? key with
  | none => rw [hg] at h; cases h
  | some b =>
    rw [hg] at h
    by_cases hk : key = StoreKey.nil
    · simp [hk] at h
    · simp only [hk, if_false] at h
      cases h
      exact GoMap.mem_of_get? _ _ _ hg

/-- An operation on a substore of `cms` changes no store but the overlays of
`cms`. -/
theorem applyOp_frame (cms : Store) (s s' : State) (op : Op)
    (h : cms.applyOp s op = Except.ok s') :
    s'.kv.length = s.kv.length ∧
    (∀ a, (∀ e ∈ cms.stores, e.2 ≠ a) → nodeAt s'.kv a = nodeAt s.kv a) ∧
    s'.tcs = s.tcs ∧ s'.lss = s.lss ∧ s'.calls = s.calls := by
  cases op with
  | set key k v =>
    simp only [Store.applyOp] at h
    cases hg : cms.GetKVStore key with
    | error msg => rw [hg] at h; cases h
    | ok b =>
      rw [hg] at h
      cases h
      refine ⟨length_modifyAt _ _ _, ?_, rfl, rfl, rfl⟩
      intro a ha
      exact nodeAt_modifyAt_ne _ _ _ _ (fun hab => ha _ (GetKVStore_mem _ _ _ hg) hab.symm)
  | delete key k =>
    simp only [Store.applyOp] at h
    cases hg : cms.GetKVStore key with
    | error msg => rw [hg] at h; cases h
    | ok b =>
      rw [hg] at h
      cases h
      refine ⟨length_modifyAt _ _ _, ?_, rfl, rfl, rfl⟩
      intro a ha
      exact nodeAt_modifyAt_ne _ _ _ _ (fun hab => ha _ (GetKVStore_mem _ _ _ hg) hab.symm)

theorem applyOps_frame (cms : Store) (ops : List Op) (s : State) :
    (cms.applyOps s ops).1.kv.length = s.kv.length ∧
    (∀ a, (∀ e ∈ cms.stores, e.2 ≠ a) → nodeAt (cms.applyOps s ops).1.kv a = nodeAt s.kv a) ∧
    (cms.applyOps s ops).1.tcs = s.tcs ∧ (cms.applyOps s ops).1.lss = s.lss ∧
    (cms.applyOps s ops).1.calls = s.calls := by
  induction ops generalizing s with
  | nil => exact ⟨rfl, fun _ _ => rfl, rfl, rfl, rfl⟩
  | cons op rest ih =>
    simp only [Store.applyOps]
    cases hop : cms.applyOp s op with
    | error msg => exact ⟨rfl, fun _ _ => rfl, rfl, rfl, rfl⟩
    | ok s1 =>
      simp only
      obtain ⟨f1, f2, f3, f4, f5⟩ := applyOp_frame cms s s1 op hop
      obtain ⟨g1, g2, g3, g4, g5⟩ := ih s1
      exact ⟨g1.trans f1, fun a ha => (g2 a ha).trans (f2 a ha), g3.trans f3, g4.trans f4,
        g5.trans f5⟩

/-- Heaps of the same size with the same node at every address are equal. -/
theorem eq_of_nodeAt (kv kv' : List Node) (hlen : kv'.length = kv.length)
    (h : ∀ a, a < kv.length → nodeAt kv' a = nodeAt kv a) : kv' = kv := by
  induction kv generalizing kv' with
  | nil => exact List.length_eq_zero.1 hlen
  | cons m old ih =>
    cases kv' with
    | nil => simp at hlen
    | cons n rest =>
      simp only [List.length_cons, add_left_inj] at hlen
      have hm := h old.length (by simp)
      rw [nodeAt_cons_self] at hm
      rw [← hlen, nodeAt_cons_self] at hm
      cases hm
      congr 1
      apply ih rest hlen
      intro a ha
      have := h a (by simp only [List.length_cons]; omega)
      rw [nodeAt_cons_lt _ _ _ ha, nodeAt_cons_lt _ _ _ (by omega)] at this
      exact this

/-- Heaps that agree at every old address have the same old part. -/
theorem drop_eq_of_nodeAt (kv kv' : List Node) (hlen : kv.length ≤ kv'.length)
    (h : ∀ a, a < kv.length → nodeAt kv' a = nodeAt kv a) :
    kv'.drop (kv'.length - kv.length) = kv := by
  induction kv' with
  | nil =>
    simp only [List.length_nil, Nat.le_zero, List.length_eq_zero] at hlen
    simp [hlen]
  | cons n rest ih =>
    by_cases hl : kv.length ≤ rest.length
    · have hd : (n :: rest).length - kv.length = (rest.length - kv.length) + 1 := by
        simp only [List.length_cons]; omega
      rw [hd, List.drop_succ_cons]
      apply ih hl
      intro a ha
      rw [← h a ha, nodeAt_cons_lt _ _ _ (by omega)]
    · simp only [List.length_cons] at hlen
      have hlen' : (n :: rest).length = kv.length := by
        simp only [List.length_cons]; omega
      rw [hlen', Nat.sub_self, List.drop_zero]
      exact eq_of_nodeAt kv (n :: rest) hlen' h

end cachemulti

namespace cachemulti

theorem FreshOver.after_grows {a b : Store × State} (h : Grows a b) {n x : Nat}
    {W : Nat → Prop} (hs : FreshOver n W a.2.kv x) : FreshOver n W b.2.kv x := by
  obtain ⟨h1, o, h2, h3⟩ := hs
  refine ⟨h1, o, ?_, ?_⟩
  · rw [h.nodeAt_eq x (nodeAt_lt _ _ _ h2)]
    exact h2
  · rcases h3 with h3 | ⟨h3, o', h4, h5⟩
    · exact Or.inl h3
    · refine Or.inr ⟨h3, o', ?_, h5⟩
      rw [h.nodeAt_eq _ (nodeAt_lt _ _ _ h4)]
      exact h4

/-- One round of the loop stores a fresh overlay over the entry's wrapper. -/
theorem step_shape (limit : Int) (n : Nat) (W : Nat → Prop) (acc : Store × State)
    (e : StoreKey × Nat) (hW : W e.2) (hn : n ≤ acc.2.kv.length)
    (hacc : ∀ x ∈ acc.1.stores, FreshOver n W acc.2.kv x.2) :
    ∀ x ∈ (NewFromKVStore.step limit acc e).1.stores,
      FreshOver n W (NewFromKVStore.step limit acc e).2.kv x.2 := by
  intro x hx
  have hg := step_grows limit acc e
  rw [step_eq] at hx hg ⊢
  by_cases hL : acc.1.ListeningEnabled acc.2 e.1 = true
  · simp only [hL, if_true] at hx hg ⊢
    rcases GoMap.mem_set _ _ _ _ hx with h1 | h1
    · exact FreshOver.after_grows hg (hacc x h1)
    · subst h1
      have h4 : nodeAt
          (listenedWrap acc.2.kv.length e.1 ((acc.1.listenersAt acc.2 e.1).getD []) limit
            :: tracedWrap e.2 e.1 acc.1.traceWriter acc.1.traceContext limit :: acc.2.kv)
          acc.2.kv.length
          = some (tracedWrap e.2 e.1 acc.1.traceWriter acc.1.traceContext limit) := by
        rw [nodeAt_cons_lt _ _ _ (by simp)]
        exact nodeAt_cons_self _ _
      have h5 : nodeAt
          (listenedWrap acc.2.kv.length e.1 ((acc.1.listenersAt acc.2 e.1).getD []) limit
            :: tracedWrap e.2 e.1 acc.1.traceWriter acc.1.traceContext limit :: acc.2.kv)
          (acc.2.kv.length + 1)
          = some (listenedWrap acc.2.kv.length e.1 ((acc.1.listenersAt acc.2 e.1).getD [])
              limit) :=
        nodeAt_cons_self _ (_ :: acc.2.kv)
      exact ⟨Nat.le_succ_of_le hn, _, h5, Or.inr ⟨hn, _, h4, hW⟩⟩
  · simp only [hL, if_false] at hx hg ⊢
    rcases GoMap.mem_set _ _ _ _ hx with h1 | h1
    · exact FreshOver.after_grows hg (hacc x h1)
    · subst h1
      have h4 : nodeAt
          (tracedWrap e.2 e.1 acc.1.traceWriter acc.1.traceContext limit :: acc.2.kv)
          acc.2.kv.length
          = some (tracedWrap e.2 e.1 acc.1.traceWriter acc.1.traceContext limit) :=
        nodeAt_cons_self _ _
      exact ⟨hn, _, h4, Or.inl hW⟩

theorem fold_shape (limit : Int) (n : Nat) (W : Nat → Prop) (l : GoMap StoreKey Nat)
    (acc : Store × State) (hW : ∀ e ∈ l, W e.2) (hn : n ≤ acc.2.kv.length)
    (hacc : ∀ x ∈ acc.1.stores, FreshOver n W acc.2.kv x.2) :
    ∀ x ∈ (l.foldl (NewFromKVStore.step limit) acc).1.stores,
      FreshOver n W (l.foldl (NewFromKVStore.step limit) acc).2.kv x.2 := by
  induction l generalizing acc with
  | nil => exact hacc
  | cons e rest ih =>
    simp only [List.foldl_cons]
    apply ih
    · exact fun x hx => hW x (List.mem_cons_of_mem _ hx)
    · exact le_trans hn (step_grows limit acc e).length_le
    · exact step_shape limit n W acc e (hW e (List.mem_cons_self _ _)) hn hacc

/-- What a branch adds to the state: it leaves the existing stores and maps
alone, and each of its substores is a fresh overlay over a substore of the
store branched from. -/
theorem branch_facts (s : State) (M : Store) (size : Int) :
    s.kv.length ≤ (M.CacheMultiStore s size).2.kv.length ∧
    (∀ a, a < s.kv.length → nodeAt (M.CacheMultiStore s size).2.kv a = nodeAt s.kv a) ∧
    (M.CacheMultiStore s size).2.tcs = s.tcs ∧
    (M.CacheMultiStore s size).2.lss = s.lss ∧
    (M.CacheMultiStore s size).2.calls = s.calls ∧
    (∀ x ∈ (M.CacheMultiStore s size).1.stores,
      FreshOver s.kv.length (fun w => ∃ m ∈ M.stores, m.2 = w)
        (M.CacheMultiStore s size).2.kv x.2) := by
  unfold Store.CacheMultiStore newCacheMultiStoreFromCMS
  simp only
  have hg := NewFromKVStore_grows s M.db
    (M.stores.foldl (fun m e => GoMap.set m e.1 e.2) []) none M.traceWriter
    M.traceContext M.listeners size
  have hlen : s.kv.length ≤ (NewFromKVStore.init s M.db none M.traceWriter M.traceContext
      M.listeners size).2.kv.length := by
    simp [NewFromKVStore.init, cachekv.NewStore, alloc]
  refine ⟨le_trans hlen hg.length_le, ?_, hg.2.2.2.2.2.1, hg.2.2.2.2.2.2.1,
    hg.2.2.2.2.2.2.2.1, ?_⟩
  · intro a ha
    rw [hg.nodeAt_eq a (lt_of_lt_of_le ha hlen)]
    exact nodeAt_cons_lt _ _ _ ha
  · apply fold_shape
    · intro e he
      rcases copy_mem _ _ _ he with h | h
      · cases h
      · exact ⟨e, h, rfl⟩
    · exact hlen
    · intro x hx
      cases hx

/-- Reads through a fresh overlay do not see changes made to stores that are
neither old nor allocated with the overlay. -/
theorem read_over (kv kv' : List Node) (X W : Nat → Prop) (n0 n b : Nat) (k : Bytes)
    (hagree : ∀ a, ¬ X a → nodeAt kv' a = nodeAt kv a)
    (hX0 : ∀ a, X a → n0 ≤ a) (hXn : ∀ a, X a → a < n)
    (hW : ∀ w, W w → w < n0) (hb : FreshOver n W kv b) :
    cachekv.getFrom kv' b k = cachekv.getFrom kv b k := by
  have hold : ∀ w, W w → cachekv.getFrom kv' w k = cachekv.getFrom kv w k := by
    intro w hw
    apply cachekv.getFrom_congr
    intro a' ha'
    apply hagree
    intro hx
    have := hX0 a' hx
    have := hW w hw
    omega
  have hnew : ∀ a, n ≤ a → nodeAt kv' a = nodeAt kv a := by
    intro a ha
    apply hagree
    intro hx
    have := hXn a hx
    omega
  obtain ⟨h1, o, h2, h3⟩ := hb
  rw [cachekv.getFrom_eq kv' b k, cachekv.getFrom_eq kv b k, hnew b h1, h2]
  simp only
  cases o.cache.get? k with
  | some e => rfl
  | none =>
    simp only
    by_cases hp : o.parent < b
    · simp only [hp, if_true]
      rcases h3 with h3 | ⟨h3, o', h4, h5⟩
      · exact hold _ h3
      · rw [cachekv.getFrom_eq kv' o.parent k, cachekv.getFrom_eq kv o.parent k,
          hnew o.parent h3, h4]
        simp only
        cases o'.cache.get? k with
        | some e => rfl
        | none =>
          simp only
          by_cases hp' : o'.parent < o.parent
          · simp only [hp', if_true]
            exact hold _ h5
          · simp [hp']
    · simp [hp]

theorem read_old (M : Store) (s t : State) (hM : ∀ e ∈ M.stores, e.2 < s.kv.length)
    (hag : ∀ a, a < s.kv.length → nodeAt t.kv a = nodeAt s.kv a)
    (key : StoreKey) (k : Bytes) : M.read t key k = M.read s key k := by
  unfold Store.read
  cases hg : M.GetKVStore key with
  | error msg => rfl
  | ok m =>
    simp only
    congr 1
    have hm := hM _ (GetKVStore_mem _ _ _ hg)
    exact cachekv.getFrom_congr s.kv t.kv k m (fun a' ha' => hag a' (by omega))

theorem restrict_old (s t : State) (hlen : s.kv.length ≤ t.kv.length)
    (hag : ∀ a, a < s.kv.length → nodeAt t.kv a = nodeAt s.kv a)
    (h1 : t.tcs = s.tcs) (h2 : t.lss = s.lss) (h3 : t.calls = s.calls) :
    t.restrict s.kv.length = s := by
  unfold State.restrict
  rw [drop_eq_of_nodeAt s.kv t.kv hlen hag, h1, h2, h3]

end cachemulti

namespace cachemulti

/-- C2: isolation.  Let `B1` and then `B2` be branches of the multi-store `M`
(whose substores are allocated in the state `s`).  Whatever sequence of
set/delete operations is run on the substores of one branch, with no `Write`,
every read through a substore of `M` returns what it returned before the
branches were taken, every read through a substore of the other branch returns
what it returned before the operations, and dropping the stores allocated
since leaves exactly the state `s`. -/
theorem branch_isolation (s : State) (M : Store) (n1 n2 : Int) (ops : List Op)
    (B1 B2 : Store) (s1 s2 : State)
    (hM : ∀ e ∈ M.stores, e.2 < s.kv.length)
    (h1 : M.CacheMultiStore s n1 = (B1, s1))
    (h2 : M.CacheMultiStore s1 n2 = (B2, s2)) :
    (∀ key k, M.read (B1.applyOps s1 ops).1 key k = M.read s key k) ∧
    (B1.applyOps s1 ops).1.restrict s.kv.length = s ∧
    (∀ key k, M.read (B1.applyOps s2 ops).1 key k = M.read s key k) ∧
    (∀ key k, B2.read (B1.applyOps s2 ops).1 key k = B2.read s2 key k) ∧
    (B1.applyOps s2 ops).1.restrict s.kv.length = s ∧
    (∀ key k, M.read (B2.applyOps s2 ops).1 key k = M.read s key k) ∧
    (∀ key k, B1.read (B2.applyOps s2 ops).1 key k = B1.read s2 key k) ∧
    (B2.applyOps s2 ops).1.restrict s.kv.length = s := by
  obtain ⟨a1, a2, a3, a4, a5, a6⟩ := branch_facts s M n1
  rw [h1] at a1 a2 a3 a4 a5 a6
  obtain ⟨b1, b2, b3, b4, b5, b6⟩ := branch_facts s1 M n2
  rw [h2] at b1 b2 b3 b4 b5 b6
  simp only at a1 a2 a3 a4 a5 a6 b1 b2 b3 b4 b5 b6
  -- the overlays of the first branch lie between the two allocations
  have hB1lo : ∀ e ∈ B1.stores, s.kv.length ≤ e.2 := fun e he => (a6 e he).1
  have hB1hi : ∀ e ∈ B1.stores, e.2 < s1.kv.length := fun e he => by
    obtain ⟨_, o, ho, _⟩ := a6 e he
    exact nodeAt_lt _ _ _ ho
  have hB2lo : ∀ e ∈ B2.stores, s1.kv.length ≤ e.2 := fun e he => (b6 e he).1
  -- the three runs, and the old addresses in each
  obtain ⟨f1, f2, f3, f4, f5⟩ := applyOps_frame B1 ops s1
  obtain ⟨g1, g2, g3, g4, g5⟩ := applyOps_frame B1 ops s2
  obtain ⟨k1, k2, k3, k4, k5⟩ := applyOps_frame B2 ops s2
  have oldA : ∀ a, a < s.kv.length → nodeAt (B1.applyOps s1 ops).1.kv a = nodeAt s.kv a := by
    intro a ha
    rw [f2 a (fun e he hea => by have := hB1lo e he; omega), a2 a ha]
  have oldB : ∀ a, a < s.kv.length → nodeAt (B1.applyOps s2 ops).1.kv a = nodeAt s.kv a := by
    intro a ha
    rw [g2 a (fun e he hea => by have := hB1lo e he; omega), b2 a (by omega), a2 a ha]
  have oldC : ∀ a, a < s.kv.length → nodeAt (B2.applyOps s2 ops).1.kv a = nodeAt s.kv a := by
    intro a ha
    rw [k2 a (fun e he hea => by have := hB2lo e he; omega), b2 a (by omega), a2 a ha]
  refine ⟨fun key k => read_old M s _ hM oldA key k, ?_,
    fun key k => read_old M s _ hM oldB key k, ?_, ?_,
    fun key k => read_old M s _ hM oldC key k, ?_, ?_⟩
  · exact restrict_old s _ (by rw [f1]; exact a1) oldA (f3.trans a3) (f4.trans a4)
      (f5.trans a5)
  · -- the younger branch reads, the elder was operated on
    intro key k
    unfold Store.read
    cases hg : B2.GetKVStore key with
    | error msg => rfl
    | ok b =>
      simp only
      congr 1
      exact read_over s2.kv (B1.applyOps s2 ops).1.kv (fun a => ∃ e ∈ B1.stores, e.2 = a)
        (fun w => ∃ m ∈ M.stores, m.2 = w) s.kv.length s1.kv.length b k
        (fun a ha => g2 a (fun e he hea => ha ⟨e, he, hea⟩))
        (fun a ⟨e, he, hea⟩ => hea ▸ hB1lo e he)
        (fun a ⟨e, he, hea⟩ => hea ▸ hB1hi e he)
        (fun w ⟨m, hm, hmw⟩ => hmw ▸ hM m hm)
        (b6 _ (GetKVStore_mem _ _ _ hg))
  · exact restrict_old s _ (by rw [g1]; omega) oldB ((g3.trans b3).trans a3)
      ((g4.trans b4).trans a4) ((g5.trans b5).trans a5)
  · -- the elder branch reads, the younger was operated on
    intro key k
    unfold Store.read
    cases hg : B1.GetKVStore key with
    | error msg => rfl
    | ok b =>
      simp only
      congr 1
      have hb := hB1hi _ (GetKVStore_mem _ _ _ hg)
      apply cachekv.getFrom_congr
      intro a' ha'
      exact k2 a' (fun e he hea => by have := hB2lo e he; omega)
  · exact restrict_old s _ (by rw [k1]; omega) oldC ((k3.trans b3).trans a3)
      ((k4.trans b4).trans a4) ((k5.trans b5).trans a5)

/-- Witness of C2 on the scenario: two branches of the root multi-store and
`balance ↦ 150` set on the first. -/
theorem branch_isolation_witness :
    (∀ e ∈ (root none).1.stores, e.2 < (root none).2.kv.length) ∧
    (branch none).1.read
        ((branch none).1.applyOps
          ((root none).1.CacheMultiStore (branch none).2 0).2
          [Op.set bank balance [150]]).1 bank balance = Except.ok (some [150]) ∧
    (root none).1.read
        ((branch none).1.applyOps
          ((root none).1.CacheMultiStore (branch none).2 0).2
          [Op.set bank balance [150]]).1 bank balance = Except.ok (some [100]) ∧
    ((root none).1.CacheMultiStore (branch none).2 0).1.read
        ((branch none).1.applyOps
          ((root none).1.CacheMultiStore (branch none).2 0).2
          [Op.set bank balance [150]]).1 bank balance = Except.ok (some [100]) ∧
    ((branch none).1.applyOps
          ((root none).1.CacheMultiStore (branch none).2 0).2
          [Op.set bank balance [150]]).1.restrict (root none).2.kv.length = (root none).2 := by
  have h := branch_isolation (root none).2 (root none).1 0 0 [Op.set bank balance [150]]
    (branch none).1 ((root none).1.CacheMultiStore (branch none).2 0).1
    (branch none).2 ((root none).1.CacheMultiStore (branch none).2 0).2
    (by decide) rfl rfl
  refine ⟨by decide, rfl, ?_, ?_, h.2.2.2.2.1⟩
  · rw [h.2.2.1 bank balance]
    rfl
  · rw [h.2.2.2.1 bank balance]
    rfl

end cachemulti

/-! ## Commit -/

namespace cachemulti

/-- C3: the scenario of the specification.  Without listeners the root reads
`100` before the branch is written and `150` after.  With a listener
registered for "bank" the branch reads `150`, but after `Write` on the branch
the root still reads `100`: the staged value was flushed into the inner overlay
that the constructor made before wrapping it with the listeners, and that
overlay is written by no one. -/
theorem Write_commit_scenario :
    (root none).1.read (staged none) bank balance = Except.ok (some [100]) ∧
    (branch none).1.read (staged none) bank balance = Except.ok (some [150]) ∧
    (root none).1.read (committed none) bank balance = Except.ok (some [150]) ∧
    (root (some 0)).1.ListeningEnabled genesis bank = true ∧
    (root (some 0)).1.read (staged (some 0)) bank balance = Except.ok (some [100]) ∧
    (branch (some 0)).1.read (staged (some 0)) bank balance = Except.ok (some [150]) ∧
    (root (some 0)).1.read (committed (some 0)) bank balance = Except.ok (some [100]) ∧
    (branch (some 0)).1.stores = [(bank, 7)] ∧
    nodeAt (committed (some 0)).kv 7
      = some (listenedWrap 6 bank [7] 0) ∧
    nodeAt (committed (some 0)).kv 6
      = some (Node.overlay { parent := 4, deco := Deco.plain, storeKey := bank, limit := 0,
                             cache := [(balance, some [150])] }) ∧
    (committed (some 0)).calls = [Call.write 5, Call.write 7] :=
  ⟨rfl, rfl, rfl, rfl, rfl, rfl, rfl, rfl, rfl, rfl, rfl⟩

end cachemulti

/-! ## The tracing configuration -/

namespace cachemulti

theorem GoMap.fold_set_get? {κ ν : Type} [DecidableEq κ] (extra m : GoMap κ ν) (k : κ)
    (hnd : (GoMap.keys extra).Nodup) :
    GoMap.get? (extra.foldl (fun m e => GoMap.set m e.1 e.2) m) k =
      match GoMap.get? extra k with
      | some v => some v
      | none => GoMap.get? m k := by
  induction extra generalizing m with
  | nil => rfl
  | cons e rest ih =>
    obtain ⟨k0, v0⟩ := e
    simp only [GoMap.keys_cons, List.nodup_cons] at hnd
    simp only [List.foldl_cons]
    rw [ih _ hnd.2]
    by_cases hk : k0 = k
    · subst hk
      rw [GoMap.get?_eq_none_of_not_mem rest k0 hnd.1]
      simp [GoMap.get?, GoMap.get?_set_self]
    · simp only [GoMap.get?, hk, if_false]
      rw [GoMap.get?_set_ne _ _ _ _ hk]

theorem GoMap.fold_set_keys {κ ν : Type} [DecidableEq κ] (extra m : GoMap κ ν) (k : κ) :
    k ∈ GoMap.keys (extra.foldl (fun m e => GoMap.set m e.1 e.2) m) ↔
      k ∈ GoMap.keys m ∨ k ∈ GoMap.keys extra := by
  induction extra generalizing m with
  | nil => simp [GoMap.keys]
  | cons e rest ih =>
    simp only [List.foldl_cons]
    rw [ih, GoMap.mem_keys_set, GoMap.keys_cons, List.mem_cons, or_assoc]

theorem getElem?_set_self_of_lt {α : Type} (l : List α) (i : Nat) (x : α)
    (h : i < l.length) : (l.set i x)[i]? = some x := by
  simp [List.getElem?_set, h]

theorem getElem?_set_other {α : Type} (l : List α) (i j : Nat) (x : α) (h : i ≠ j) :
    (l.set i x)[j]? = l[j]? := by
  simp [List.getElem?_set, h]

/-- C11: `SetTracingContext(e)` returns a store whose other components are
those of the receiver.  When the receiver has no trace context, the returned
store has the trace context `e`.  Otherwise its trace context is the
receiver's map `c` merged with `e`: a key of `e` has the value `e` gives it, a
key of `c` that is not in `e` keeps the value `c` gives it, and the keys are
those of `c` and of `e`. -/
theorem SetTracingContext_merges (s : State) (cms : Store) (tc : Option Nat)
    (halloc : ∀ c, cms.traceContext = some c → c < s.tcs.length)
    (hnd : ∀ e, contextAt s tc = some e → (GoMap.keys e).Nodup) :
    (cms.SetTracingContext s tc).1.db = cms.db ∧
    (cms.SetTracingContext s tc).1.stores = cms.stores ∧
    (cms.SetTracingContext s tc).1.keys = cms.keys ∧
    (cms.SetTracingContext s tc).1.traceWriter = cms.traceWriter ∧
    (cms.SetTracingContext s tc).1.listeners = cms.listeners ∧
    match cms.traceContext with
    | none =>
      (cms.SetTracingContext s tc).1.traceContext = tc ∧
      (cms.SetTracingContext s tc).1.traceContextMap (cms.SetTracingContext s tc).2
        = contextAt s tc
    | some c =>
      (cms.SetTracingContext s tc).1.traceContext = some c ∧
      ∃ m', (cms.SetTracingContext s tc).1.traceContextMap (cms.SetTracingContext s tc).2
          = some m' ∧
        (∀ k, GoMap.get? m' k =
          match GoMap.get? ((contextAt s tc).getD []) k with
          | some v => some v
          | none => GoMap.get? ((cms.traceContextMap s).getD []) k) ∧
        (∀ k, k ∈ GoMap.keys m' ↔
          k ∈ GoMap.keys ((cms.traceContextMap s).getD []) ∨
          k ∈ GoMap.keys ((contextAt s tc).getD [])) := by
  cases hc : cms.traceContext with
  | none =>
    have hr : cms.SetTracingContext s tc = ({ cms with traceContext := tc }, s) := by
      simp only [Store.SetTracingContext, hc]
    rw [hr]
    exact ⟨rfl, rfl, rfl, rfl, rfl, rfl, rfl⟩
  | some c =>
    have hlt := halloc c hc
    have hextra : (GoMap.keys ((contextAt s tc).getD [])).Nodup := by
      cases he : contextAt s tc with
      | none => simp [GoMap.keys]
      | some e => exact hnd e he
    have hr : cms.SetTracingContext s tc
        = (cms, s.setContext c
            (mergeContext ((contextAt s tc).getD []) ((s.tcs[c]?).getD []))) := by
      simp only [Store.SetTracingContext, hc]
    have hm : cms.traceContextMap s = s.tcs[c]? := by
      simp only [Store.traceContextMap, contextAt, hc]
    have hm' : cms.traceContextMap (s.setContext c
          (mergeContext ((contextAt s tc).getD []) ((s.tcs[c]?).getD [])))
        = some (mergeContext ((contextAt s tc).getD []) ((s.tcs[c]?).getD [])) := by
      simp only [Store.traceContextMap, contextAt, hc, State.setContext]
      exact getElem?_set_self_of_lt _ _ _ hlt
    rw [hr, hm]
    refine ⟨rfl, rfl, rfl, rfl, rfl, hc, _, hm', ?_, ?_⟩
    · intro k
      unfold mergeContext
      rw [GoMap.fold_set_get? ((contextAt s tc).getD []) ((s.tcs[c]?).getD []) k hextra]
      cases GoMap.get? ((contextAt s tc).getD []) k <;> rfl
    · intro k
      unfold mergeContext
      exact GoMap.fold_set_keys ((contextAt s tc).getD []) ((s.tcs[c]?).getD []) k

/-- Witness of C11: the second trace-context map of `tracedState` merged into
the trace context of `tracedStore`. -/
theorem SetTracingContext_merges_witness :
    (∀ c, tracedStore.traceContext = some c → c < tracedState.tcs.length) ∧
    (∀ e, contextAt tracedState (some 1) = some e → (GoMap.keys e).Nodup) ∧
    (tracedStore.SetTracingContext tracedState (some 1)).1.traceContextMap
        (tracedStore.SetTracingContext tracedState (some 1)).2
      = some [("txIndex", "2"), ("msg", "send")] ∧
    (tracedStore.SetTracingContext tracedState (some 1)).1.stores = tracedStore.stores := by
  have h1 : ∀ c, tracedStore.traceContext = some c → c < tracedState.tcs.length := by
    intro c hc
    cases hc
    decide
  have h2 : ∀ e, contextAt tracedState (some 1) = some e → (GoMap.keys e).Nodup := by
    intro e he
    cases he
    decide
  exact ⟨h1, h2, by decide, (SetTracingContext_merges tracedState tracedStore (some 1) h1 h2).2.1⟩

end cachemulti

namespace cachemulti

/-- C12 (as stated) fails: after `SetTracingContext` on a store whose trace
context is not nil, the receiver no longer has the trace-context contents it
had before the call. -/
theorem SetTracingContext_receiver_contents_fails :
    ¬ (tracedStore.traceContextMap (tracedStore.SetTracingContext tracedState (some 1)).2
        = tracedStore.traceContextMap tracedState) := by
  decide

/-- C12 (as amended): `SetTracer` returns a copy with the new writer and
changes nothing else, so the receiver keeps its trace writer, its trace-context
contents and its overlays.  `SetTracingContext` leaves the trace writer, the
substore map, the stores on the heap and every other map alone.  When the
receiver's trace context is nil nothing changes for the receiver and only the
returned copy has the new context.  When it is the map `c`, the returned store
is the receiver itself and the merge is written into `c`: afterwards the
receiver reads, for a key of `e`, the value `e` gives it and, for any other
key, the value `c` gave it, and so does every traced overlay that was built
with the map `c`. -/
theorem SetTracer_SetTracingContext_receiver (s : State) (cms : Store)
    (w : Option Writer) (tc : Option Nat)
    (halloc : ∀ c, cms.traceContext = some c → c < s.tcs.length)
    (hnd : ∀ e, contextAt s tc = some e → (GoMap.keys e).Nodup) :
    (cms.SetTracer s w).1 = { cms with traceWriter := w } ∧
    (cms.SetTracer s w).2 = s ∧
    (cms.SetTracingContext s tc).2.kv = s.kv ∧
    (cms.SetTracingContext s tc).2.lss = s.lss ∧
    (cms.SetTracingContext s tc).2.calls = s.calls ∧
    (cms.SetTracingContext s tc).1.traceWriter = cms.traceWriter ∧
    (cms.SetTracingContext s tc).1.stores = cms.stores ∧
    match cms.traceContext with
    | none =>
      (cms.SetTracingContext s tc).2 = s ∧
      (cms.SetTracingContext s tc).1.traceContext = tc
    | some c =>
      (cms.SetTracingContext s tc).1 = cms ∧
      (∀ c', c' ≠ c → (cms.SetTracingContext s tc).2.tcs[c']? = s.tcs[c']?) ∧
      ∃ m', cms.traceContextMap (cms.SetTracingContext s tc).2 = some m' ∧
        (∀ k, GoMap.get? m' k =
          match GoMap.get? ((contextAt s tc).getD []) k with
          | some v => some v
          | none => GoMap.get? ((cms.traceContextMap s).getD []) k) ∧
        (∀ k, k ∈ GoMap.keys m' ↔
          k ∈ GoMap.keys ((cms.traceContextMap s).getD []) ∨
          k ∈ GoMap.keys ((contextAt s tc).getD [])) ∧
        (∀ a o w', nodeAt s.kv a = some (Node.overlay o) → o.deco = Deco.trace w' (some c) →
          overlayContext (cms.SetTracingContext s tc).2 a = some m') := by
  refine ⟨rfl, rfl, ?_⟩
  cases hc : cms.traceContext with
  | none =>
    have hr : cms.SetTracingContext s tc = ({ cms with traceContext := tc }, s) := by
      simp only [Store.SetTracingContext, hc]
    rw [hr]
    exact ⟨rfl, rfl, rfl, rfl, rfl, rfl, rfl⟩
  | some c =>
    have hlt := halloc c hc
    have hextra : (GoMap.keys ((contextAt s tc).getD [])).Nodup := by
      cases he : contextAt s tc with
      | none => simp [GoMap.keys]
      | some e => exact hnd e he
    have hr : cms.SetTracingContext s tc
        = (cms, s.setContext c
            (mergeContext ((contextAt s tc).getD []) ((s.tcs[c]?).getD []))) := by
      simp only [Store.SetTracingContext, hc]
    have hm : cms.traceContextMap s = s.tcs[c]? := by
      simp only [Store.traceContextMap, contextAt, hc]
    have hset : (s.setContext c
          (mergeContext ((contextAt s tc).getD []) ((s.tcs[c]?).getD []))).tcs[c]?
        = some (mergeContext ((contextAt s tc).getD []) ((s.tcs[c]?).getD [])) :=
      getElem?_set_self_of_lt _ _ _ hlt
    have hm' : cms.traceContextMap (s.setContext c
          (mergeContext ((contextAt s tc).getD []) ((s.tcs[c]?).getD [])))
        = some (mergeContext ((contextAt s tc).getD []) ((s.tcs[c]?).getD [])) := by
      simp only [Store.traceContextMap, contextAt, hc]
      exact hset
    rw [hr, hm]
    refine ⟨rfl, rfl, rfl, rfl, rfl, rfl, ?_, _, hm', ?_, ?_, ?_⟩
    · intro c' hc'
      exact getElem?_set_other _ _ _ _ (fun h => hc' h.symm)
    · intro k
      unfold mergeContext
      rw [GoMap.fold_set_get? ((contextAt s tc).getD []) ((s.tcs[c]?).getD []) k hextra]
      cases GoMap.get? ((contextAt s tc).getD []) k <;> rfl
    · intro k
      unfold mergeContext
      exact GoMap.fold_set_keys ((contextAt s tc).getD []) ((s.tcs[c]?).getD []) k
    · intro a o w' ha ho
      have ha' : nodeAt (s.setContext c
          (mergeContext ((contextAt s tc).getD []) ((s.tcs[c]?).getD []))).kv a
          = some (Node.overlay o) := ha
      unfold overlayContext
      rw [ha']
      simp only [ho]
      exact hset

/-- Witness of C12 (as amended): the second trace-context map merged into the
trace context of the traced root multi-store; the receiver and its traced
overlay for "bank", which read `txIndex ↦ 1` before, read the merge after. -/
theorem SetTracer_SetTracingContext_receiver_witness :
    (∀ c, tracedRoot.1.traceContext = some c → c < tracedRoot.2.tcs.length) ∧
    (∀ e, contextAt tracedRoot.2 (some 1) = some e → (GoMap.keys e).Nodup) ∧
    tracedRoot.1.stores = [(bank, 3)] ∧
    tracedRoot.1.traceContextMap tracedRoot.2 = some [("txIndex", "1")] ∧
    overlayContext tracedRoot.2 3 = some [("txIndex", "1")] ∧
    tracedRoot.1.traceContextMap (tracedRoot.1.SetTracingContext tracedRoot.2 (some 1)).2
      = some [("txIndex", "2"), ("msg", "send")] ∧
    overlayContext (tracedRoot.1.SetTracingContext tracedRoot.2 (some 1)).2 3
      = some [("txIndex", "2"), ("msg", "send")] ∧
    (tracedRoot.1.SetTracingContext tracedRoot.2 (some 1)).2.kv = tracedRoot.2.kv := by
  have h1 : ∀ c, tracedRoot.1.traceContext = some c → c < tracedRoot.2.tcs.length := by
    intro c hc
    have h0 : tracedRoot.1.traceContext = some 0 := by decide
    rw [h0] at hc
    cases hc
    decide
  have h2 : ∀ e, contextAt tracedRoot.2 (some 1) = some e → (GoMap.keys e).Nodup := by
    intro e he
    have h0 : contextAt tracedRoot.2 (some 1) = some [("txIndex", "2"), ("msg", "send")] := by
      decide
    rw [h0] at he
    cases he
    decide
  exact ⟨h1, h2, by decide, by decide, by decide, by decide, by decide,
    (SetTracer_SetTracingContext_receiver tracedRoot.2 tracedRoot.1 none (some 1) h1 h2).2.2.1⟩

theorem registry_assign (s : State) (cms : Store) (key : StoreKey)
    (ls : List WriteListener) (r : Nat) (L : GoMap StoreKey (List WriteListener))
    (hreg : cms.listeners = some r) (hL : s.lss[r]? = some L) :
    ∃ s', cms.assignListeners s key ls = Except.ok s' ∧
      cms.registry s' = some (GoMap.set L key ls) ∧
      s'.kv = s.kv ∧ s'.tcs = s.tcs ∧ s'.calls = s.calls ∧
      ∀ r', r' ≠ r → s'.lss[r']? = s.lss[r']? := by
  have hlt : r < s.lss.length := by
    by_contra h
    rw [List.getElem?_eq_none (by omega)] at hL
    cases hL
  refine ⟨{ s with lss := s.lss.set r (GoMap.set ((s.lss[r]?).getD []) key ls) }, ?_, ?_,
    rfl, rfl, rfl, ?_⟩
  · simp only [Store.assignListeners, hreg]
  · simp only [Store.registry, hreg, hL, Option.getD_some]
    exact getElem?_set_self_of_lt _ _ _ hlt
  · intro r' hr'
    exact getElem?_set_other _ _ _ _ (fun h => hr' h.symm)

/-- C13: for a store whose listener registry is the map `L`, after
`AddListeners(key, new)` the registry maps `key` to the old list followed by
`new` when `key` was in `L` and to `new` when it was not; every other key has
the list it had; the substore map and the overlays are unchanged, and so is
every other registry. -/
theorem AddListeners_appends (s : State) (cms : Store) (key : StoreKey)
    (new : List WriteListener) (r : Nat) (L : GoMap StoreKey (List WriteListener))
    (hreg : cms.listeners = some r) (hL : s.lss[r]? = some L) :
    ∃ s' L', cms.AddListeners s key new = Except.ok s' ∧
      cms.registry s' = some L' ∧
      GoMap.get? L' key = some (match GoMap.get? L key with
                                | some ls => ls ++ new
                                | none => new) ∧
      (∀ k', k' ≠ key → GoMap.get? L' k' = GoMap.get? L k') ∧
      (∀ k', k' ∈ GoMap.keys L' ↔ k' ∈ GoMap.keys L ∨ k' = key) ∧
      s'.kv = s.kv ∧ s'.tcs = s.tcs ∧ s'.calls = s.calls ∧
      (∀ r', r' ≠ r → s'.lss[r']? = s.lss[r']?) := by
  have hat : cms.listenersAt s key = GoMap.get? L key := by
    simp only [Store.listenersAt, hreg, hL]
  cases hg : GoMap.get? L key with
  | none =>
    obtain ⟨s', h1, h2, h3, h4, h5, h6⟩ := registry_assign s cms key new r L hreg hL
    refine ⟨s', GoMap.set L key new, ?_, h2, GoMap.get?_set_self _ _ _, ?_, ?_, h3, h4, h5, h6⟩
    · simp only [Store.AddListeners, hat, hg]
      exact h1
    · exact fun k' hk' => GoMap.get?_set_ne _ _ _ _ (fun h => hk' h.symm)
    · exact fun k' => GoMap.mem_keys_set _ _ _ _
  | some ls =>
    obtain ⟨s', h1, h2, h3, h4, h5, h6⟩ :=
      registry_assign s cms key (ls ++ new) r L hreg hL
    refine ⟨s', GoMap.set L key (ls ++ new), ?_, h2, GoMap.get?_set_self _ _ _, ?_, ?_,
      h3, h4, h5, h6⟩
    · simp only [Store.AddListeners, hat, hg]
      exact h1
    · exact fun k' hk' => GoMap.get?_set_ne _ _ _ _ (fun h => hk' h.symm)
    · exact fun k' => GoMap.mem_keys_set _ _ _ _

/-- Witness of C13: two listeners added for "bank" to the registry of the root
multi-store of the scenario, which has one listener for "bank". -/
theorem AddListeners_appends_witness :
    (root (some 0)).1.listeners = some 0 ∧
    (root (some 0)).2.lss[0]? = some [(bank, [7])] ∧
    ∃ s' L', (root (some 0)).1.AddListeners (root (some 0)).2 bank [8, 9] = Except.ok s' ∧
      (root (some 0)).1.registry s' = some L' ∧
      GoMap.get? L' bank = some (match GoMap.get? [(bank, [7])] bank with
                                 | some ls => ls ++ [8, 9]
                                 | none => [8, 9]) ∧
      (∀ k', k' ≠ bank →
        GoMap.get? L' k' = GoMap.get? ([(bank, [7])] : GoMap StoreKey (List WriteListener)) k') ∧
      (∀ k', k' ∈ GoMap.keys L' ↔
        k' ∈ GoMap.keys ([(bank, [7])] : GoMap StoreKey (List WriteListener)) ∨ k' = bank) ∧
      s'.kv = (root (some 0)).2.kv ∧ s'.tcs = (root (some 0)).2.tcs ∧
      s'.calls = (root (some 0)).2.calls ∧
      (∀ r', r' ≠ 0 → s'.lss[r']? = (root (some 0)).2.lss[r']?) :=
  ⟨by decide, by decide,
   AddListeners_appends (root (some 0)).2 (root (some 0)).1 bank [8, 9] 0 [(bank, [7])]
     (by decide) (by decide)⟩

theorem CacheMultiStore_listeners (s : State) (cms : Store) (size : Int) :
    (cms.CacheMultiStore s size).1.listeners = cms.listeners := by
  unfold Store.CacheMultiStore newCacheMultiStoreFromCMS
  exact (NewFromKVStore_grows s cms.db _ none cms.traceWriter cms.traceContext
    cms.listeners size).2.2.2.2.1

theorem AddListeners_nil (s : State) (cms : Store) (key : StoreKey)
    (ls : List WriteListener) (h : cms.listeners = none) :
    cms.AddListeners s key ls = Except.error "assignment to entry in nil map" := by
  simp [Store.AddListeners, Store.listenersAt, Store.assignListeners, h]

/-- C19: `AddListeners` panics (assignment to an entry of a nil map) exactly
when the listener registry of the store is nil and completes otherwise; so it
panics, for every key and every list, on a store made by `NewFromKVStore` with
nil listeners and on every branch of such a store. -/
theorem AddListeners_nil_registry (s : State) (cms : Store) (key : StoreKey)
    (ls : List WriteListener) (s0 s1 : State) (store : Nat) (stores : GoMap StoreKey Nat)
    (keys : Option (GoMap String StoreKey)) (traceWriter : Option Writer)
    (traceContext : Option Nat) (cacheLimit size : Int) :
    (cms.AddListeners s key ls = Except.error "assignment to entry in nil map"
      ↔ cms.listeners = none) ∧
    ((∃ s', cms.AddListeners s key ls = Except.ok s') ↔ cms.listeners ≠ none) ∧
    (NewFromKVStore s0 store stores keys traceWriter traceContext none cacheLimit).1.AddListeners
      s key ls = Except.error "assignment to entry in nil map" ∧
    ((NewFromKVStore s0 store stores keys traceWriter traceContext none
        cacheLimit).1.CacheMultiStore s1 size).1.AddListeners s key ls
      = Except.error "assignment to entry in nil map" := by
  have hnew : (NewFromKVStore s0 store stores keys traceWriter traceContext none
      cacheLimit).1.listeners = none :=
    (NewFromKVStore_grows s0 store stores keys traceWriter traceContext none
      cacheLimit).2.2.2.2.1
  have hok : ∀ r, cms.listeners = some r → ∃ s', cms.AddListeners s key ls = Except.ok s' := by
    intro r hr
    simp only [Store.AddListeners, Store.assignListeners, hr]
    split <;> exact ⟨_, rfl⟩
  refine ⟨⟨?_, AddListeners_nil s cms key ls⟩, ⟨?_, ?_⟩, AddListeners_nil _ _ _ _ hnew,
    AddListeners_nil _ _ _ _ ((CacheMultiStore_listeners _ _ _).trans hnew)⟩
  · intro h
    cases hr : cms.listeners with
    | none => rfl
    | some r =>
      obtain ⟨s', hs'⟩ := hok r hr
      rw [hs'] at h
      cases h
  · rintro ⟨s', hs'⟩ hnone
    rw [AddListeners_nil s cms key ls hnone] at hs'
    cases hs'
  · intro hne
    cases hr : cms.listeners with
    | none => exact absurd hr hne
    | some r => exact hok r hr

end cachemulti

/-! ## Events, predicates and cache-wrapping of the multi-store -/

namespace cachemulti

theorem goAppend_some {α : Type} (a : List α) (b : GoSlice α) :
    goAppend (some a) b = some (a ++ b.getD []) := by
  unfold goAppend
  cases b.getD [] <;> rfl

theorem GetEvents_fold (overlayEvents : Nat → GoSlice Event) (l : GoMap StoreKey Nat)
    (acc : List Event) :
    l.foldl (fun events e => goAppend events (overlayEvents e.2)) (some acc)
      = some (acc ++ (l.map (fun e => (overlayEvents e.2).getD [])).flatten) := by
  induction l generalizing acc with
  | nil => simp
  | cons e rest ih =>
    simp only [List.foldl_cons, List.map_cons, List.flatten_cons]
    rw [goAppend_some, ih, List.append_assoc]

theorem GetEvents_eq (overlayEvents : Nat → GoSlice Event) (cms : Store) :
    cms.GetEvents overlayEvents
      = some ((cms.stores.map (fun e => (overlayEvents e.2).getD [])).flatten) := by
  unfold Store.GetEvents
  rw [GetEvents_fold]
  simp

/-- C14: `GetEvents` returns the events of the substore overlays, one overlay
after the other in the order in which the substore map is visited, the events
of each overlay in their order; its length is the sum of the overlays' event
counts; it is never the nil slice, and it is empty exactly when no substore
has an event, in particular when there is no substore. -/
theorem GetEvents_concatenates (overlayEvents : Nat → GoSlice Event) (cms : Store) :
    cms.GetEvents overlayEvents
      = some ((cms.stores.map (fun e => (overlayEvents e.2).getD [])).flatten) ∧
    ((cms.GetEvents overlayEvents).getD []).length
      = (cms.stores.map (fun e => ((overlayEvents e.2).getD []).length)).sum ∧
    cms.GetEvents overlayEvents ≠ none ∧
    (cms.GetEvents overlayEvents = some []
      ↔ ∀ e ∈ cms.stores, (overlayEvents e.2).getD [] = []) ∧
    ({ cms with stores := [] } : Store).GetEvents overlayEvents = some [] := by
  rw [GetEvents_eq]
  refine ⟨rfl, ?_, by simp, ?_, rfl⟩
  · simp [List.length_flatten, Function.comp_def]
  · simp only [Option.some.injEq, List.flatten_eq_nil_iff, List.mem_map]
    constructor
    · intro h e he
      exact h _ ⟨e, he, rfl⟩
    · rintro h l ⟨e, he, rfl⟩
      exact h e he

/-- C15: `TracingEnabled` holds exactly when the trace writer is set;
`ListeningEnabled(key)` holds exactly when the registry has under `key` a list
that is not empty, and fails when the registry is nil, has no entry for `key`
or has the empty list under `key`.  Both are functions of the store and the
state and return nothing but the truth value. -/
theorem TracingEnabled_ListeningEnabled_iff (s : State) (cms : Store) (key : StoreKey) :
    (cms.TracingEnabled = true ↔ cms.traceWriter ≠ none) ∧
    (cms.ListeningEnabled s key = true
      ↔ ∃ ls, cms.listenersAt s key = some ls ∧ ls ≠ []) ∧
    (cms.ListeningEnabled s key = false
      ↔ (cms.listenersAt s key = none ∨ cms.listenersAt s key = some [])) ∧
    cms.listenersAt s key = (cms.registry s).bind (fun m => GoMap.get? m key) := by
  refine ⟨?_, ?_, ?_, ?_⟩
  · unfold Store.TracingEnabled
    cases cms.traceWriter <;> simp
  · unfold Store.ListeningEnabled
    cases cms.listenersAt s key with
    | none => simp
    | some ls => cases ls <;> simp
  · unfold Store.ListeningEnabled
    cases cms.listenersAt s key with
    | none => simp
    | some ls => cases ls <;> simp
  · unfold Store.listenersAt Store.registry
    cases cms.listeners with
    | none => rfl
    | some r =>
      simp only
      cases s.lss[r]? <;> rfl

/-- C20: `CacheWrap`, `CacheWrapWithTrace` and `CacheWrapWithListeners` of a
multi-store return the branch `CacheMultiStore(size)` returns, whatever key,
writer, trace context and listeners they are given; the branch has the trace
writer, the trace context and the listener registry of the store. -/
theorem CacheWrap_is_CacheMultiStore (s : State) (cms : Store) (size : Int)
    (key : StoreKey) (w : Option Writer) (tc : Option Nat) (ls : List WriteListener) :
    cms.CacheWrap s key size = cms.CacheMultiStore s size ∧
    cms.CacheWrapWithTrace s key w tc size = cms.CacheMultiStore s size ∧
    cms.CacheWrapWithListeners s key ls size = cms.CacheMultiStore s size ∧
    (cms.CacheWrapWithTrace s key w tc size).1.traceWriter = cms.traceWriter ∧
    (cms.CacheWrapWithTrace s key w tc size).1.traceContext = cms.traceContext ∧
    (cms.CacheWrapWithListeners s key ls size).1.listeners = cms.listeners := by
  have hg := NewFromKVStore_grows s cms.db
    (cms.stores.foldl (fun m e => GoMap.set m e.1 e.2) []) none cms.traceWriter
    cms.traceContext cms.listeners size
  exact ⟨rfl, rfl, rfl, hg.2.2.1, hg.2.2.2.1, hg.2.2.2.2.1⟩

end cachemulti

/-! ## The proposal handlers -/

namespace accesscontrol

theorem recording_setEach {μ ω : Type} (resErr : μ → Option String)
    (wasmErr : AccAddress → ω → Option String) (l : List μ)
    (log : List (KeeperCall μ ω)) :
    setEach (recordingKeeper resErr wasmErr) log l
      = Except.ok (log ++ l.map KeeperCall.setResource) := by
  induction l generalizing log with
  | nil => simp [setEach]
  | cons m rest ih =>
    simp only [setEach, recordingKeeper, List.map_cons]
    have := ih (log ++ [KeeperCall.setResource m])
    simp only [recordingKeeper] at this
    rw [this]
    simp

theorem setEach_ok {σ μ ω : Type} (k : Keeper σ μ ω) (l : List μ) (ctx : σ)
    (hvalid : ∀ st m, m ∈ l → ∃ r, k.SetResourceDependencyMapping st m = Except.ok r) :
    ∃ st, setEach k ctx l = Except.ok st := by
  induction l generalizing ctx with
  | nil => exact ⟨ctx, rfl⟩
  | cons m rest ih =>
    obtain ⟨r, hr⟩ := hvalid ctx m (List.mem_cons_self _ _)
    simp only [setEach, hr]
    exact ih r.1 (fun st x hx => hvalid st x (List.mem_cons_of_mem _ hx))

/-- C16: `HandleMsgUpdateWasmDependencyMappingProposal` returns what the
keeper's `SetWasmDependencyMapping` returns for the proposal's contract address
and mapping: an error exactly when that call returns one, and then the same
error; on a keeper that records its calls it makes that one call and no other;
the handler made by `NewProposalHandler` returns the same for such a
proposal. -/
theorem HandleWasm_propagates {σ μ ω : Type} (ctx : σ) (k : Keeper σ μ ω)
    (p : MsgUpdateWasmDependencyMappingProposal ω) (resErr : μ → Option String)
    (wasmErr : AccAddress → ω → Option String) (log : List (KeeperCall μ ω)) :
    HandleMsgUpdateWasmDependencyMappingProposal ctx k p
      = k.SetWasmDependencyMapping ctx (AccAddress.ofString p.ContractAddress)
          p.WasmDependencyMapping ∧
    (∀ st err, HandleMsgUpdateWasmDependencyMappingProposal ctx k p = Except.ok (st, some err)
      ↔ k.SetWasmDependencyMapping ctx (AccAddress.ofString p.ContractAddress)
          p.WasmDependencyMapping = Except.ok (st, some err)) ∧
    (∀ st, HandleMsgUpdateWasmDependencyMappingProposal ctx k p = Except.ok (st, none)
      ↔ k.SetWasmDependencyMapping ctx (AccAddress.ofString p.ContractAddress)
          p.WasmDependencyMapping = Except.ok (st, none)) ∧
    HandleMsgUpdateWasmDependencyMappingProposal log (recordingKeeper resErr wasmErr) p
      = Except.ok
          (log ++ [KeeperCall.setWasm (AccAddress.ofString p.ContractAddress)
                    p.WasmDependencyMapping],
           wasmErr (AccAddress.ofString p.ContractAddress) p.WasmDependencyMapping) ∧
    NewProposalHandler k ctx (Content.wasm p)
      = HandleMsgUpdateWasmDependencyMappingProposal ctx k p := by
  have h : ∀ (τ : Type) (k' : Keeper τ μ ω) (c : τ),
      HandleMsgUpdateWasmDependencyMappingProposal c k' p
        = k'.SetWasmDependencyMapping c (AccAddress.ofString p.ContractAddress)
            p.WasmDependencyMapping := by
    intro τ k' c
    unfold HandleMsgUpdateWasmDependencyMappingProposal
    cases hr : k'.SetWasmDependencyMapping c (AccAddress.ofString p.ContractAddress)
      p.WasmDependencyMapping with
    | error msg => rfl
    | ok r =>
      obtain ⟨st, e⟩ := r
      cases e <;> rfl
  refine ⟨h σ k ctx, ?_, ?_, ?_, rfl⟩
  · intro st err
    rw [h σ k ctx]
  · intro st
    rw [h σ k ctx]
  · rw [h]
    rfl

/-- C17 (as stated) fails: on a keeper whose `SetResourceDependencyMapping`
panics for a mapping with no access operation, the handler does not return: it
panics at the entry `[]`, after the call for the entry `[1]`. -/
theorem HandleResource_panics_with_keeper :
    ¬ (∃ st, HandleMsgUpdateResourceDependencyMappingProposal [] strictKeeper
        ({ MessageDependencyMapping := [[1], []] } :
          MsgUpdateResourceDependencyMappingProposal (List Nat))
        = Except.ok (st, none)) := by
  rintro ⟨st, h⟩
  have e : HandleMsgUpdateResourceDependencyMappingProposal [] strictKeeper
      ({ MessageDependencyMapping := [[1], []] } :
        MsgUpdateResourceDependencyMappingProposal (List Nat))
      = Except.error "runtime error: index out of range [-1]" := rfl
  rw [e] at h
  cases h

/-- C17 (as amended): when the keeper's `SetResourceDependencyMapping` panics
on no entry of the proposal's mapping list, the handler returns no error,
whatever error values the keeper returns; on a keeper that records its calls
and never panics it makes one call of `SetResourceDependencyMapping` for each
entry of the list, in list order, and no other call; for the empty list it
makes none. -/
theorem HandleResource_returns_nil {σ μ ω : Type} (ctx : σ) (k : Keeper σ μ ω)
    (p : MsgUpdateResourceDependencyMappingProposal μ) (resErr : μ → Option String)
    (wasmErr : AccAddress → ω → Option String) (log : List (KeeperCall μ ω))
    (hvalid : ∀ st m, m ∈ p.MessageDependencyMapping →
      ∃ r, k.SetResourceDependencyMapping st m = Except.ok r) :
    (∃ st, HandleMsgUpdateResourceDependencyMappingProposal ctx k p = Except.ok (st, none)) ∧
    HandleMsgUpdateResourceDependencyMappingProposal log (recordingKeeper resErr wasmErr) p
      = Except.ok (log ++ p.MessageDependencyMapping.map KeeperCall.setResource, none) ∧
    HandleMsgUpdateResourceDependencyMappingProposal ctx k
      ({ MessageDependencyMapping := [] } : MsgUpdateResourceDependencyMappingProposal μ)
      = Except.ok (ctx, none) ∧
    NewProposalHandler k ctx (Content.resource p)
      = HandleMsgUpdateResourceDependencyMappingProposal ctx k p := by
  refine ⟨?_, ?_, rfl, rfl⟩
  · obtain ⟨st, hst⟩ := setEach_ok k p.MessageDependencyMapping ctx hvalid
    exact ⟨st, by simp only [HandleMsgUpdateResourceDependencyMappingProposal, hst]⟩
  · simp only [HandleMsgUpdateResourceDependencyMappingProposal, recording_setEach]

/-- Witness of C17 (as amended): a proposal with two entries on `strictKeeper`,
which panics on neither; the keeper is called for `[1]` and then for `[2, 3]`. -/
theorem HandleResource_returns_nil_witness :
    (∀ st m, m ∈ ([[1], [2, 3]] : List (List Nat)) →
      ∃ r, strictKeeper.SetResourceDependencyMapping st m = Except.ok r) ∧
    HandleMsgUpdateResourceDependencyMappingProposal [] strictKeeper
        ({ MessageDependencyMapping := [[1], [2, 3]] } :
          MsgUpdateResourceDependencyMappingProposal (List Nat))
      = Except.ok ([KeeperCall.setResource [1], KeeperCall.setResource [2, 3]], none) ∧
    ∃ st, HandleMsgUpdateResourceDependencyMappingProposal [] strictKeeper
        ({ MessageDependencyMapping := [[1], [2, 3]] } :
          MsgUpdateResourceDependencyMappingProposal (List Nat))
      = Except.ok (st, none) := by
  have hv : ∀ st m, m ∈ ([[1], [2, 3]] : List (List Nat)) →
      ∃ r, strictKeeper.SetResourceDependencyMapping st m = Except.ok r := by
    intro st m hm
    simp only [List.mem_cons, List.mem_singleton, List.not_mem_nil, or_false] at hm
    rcases hm with rfl | rfl <;> exact ⟨_, rfl⟩
  exact ⟨hv, rfl,
    (HandleResource_returns_nil [] strictKeeper
      ({ MessageDependencyMapping := [[1], [2, 3]] } :
        MsgUpdateResourceDependencyMappingProposal (List Nat))
      (fun _ => none) (fun _ _ => none) [] hv).1⟩

end accesscontrol

/-! ## The overlays of a branch -/

namespace cachemulti

/-- C8 (as stated) fails: in the branch of the root multi-store that has a
listener for "bank", the overlay under "bank" (address 7) is not a cache-wrap
of the overlay the root holds under "bank" (address 4): it wraps the overlay at
address 6. -/
theorem CacheMultiStore_branch_listening_fails :
    ¬ (∀ k p, (root (some 0)).1.stores.get? k = some p →
        ∃ b, (branch (some 0)).1.stores.get? k = some b ∧
          IsCacheWrapOf (branch (some 0)).2.kv b p) := by
  intro h
  obtain ⟨b, hb, o, ho, hp, _⟩ := h bank 4 (by decide)
  have h7 : (branch (some 0)).1.stores.get? bank = some 7 := by decide
  rw [h7] at hb
  cases hb
  have hnode : nodeAt (branch (some 0)).2.kv 7 = some (listenedWrap 6 bank [7] 0) := by
    decide
  rw [hnode] at ho
  cases ho
  exact absurd hp (by decide)

/-- C8 (as amended): the branch `B = P.CacheMultiStore(n)` has as base a fresh
overlay over the base overlay of `P`; its substore map has exactly the keys of
`P`, each once, and under each key for which listening is not enabled a fresh
overlay that is a cache-wrap (traced when a trace writer is set) of the overlay
`P` holds under that key; it has the trace writer, trace context and listener
registry of `P` and no key registry. -/
theorem CacheMultiStore_branch (s : State) (P : Store) (n : Int)
    (hnd : P.stores.keys.Nodup) :
    (P.CacheMultiStore s n).1.db = s.kv.length ∧
    nodeAt s.kv (P.CacheMultiStore s n).1.db = none ∧
    nodeAt (P.CacheMultiStore s n).2.kv (P.CacheMultiStore s n).1.db
      = some (Node.overlay { parent := P.db, deco := Deco.plain, storeKey := StoreKey.nil,
                             limit := n, cache := [] }) ∧
    (∀ k, k ∈ (P.CacheMultiStore s n).1.stores.keys ↔ k ∈ P.stores.keys) ∧
    (P.CacheMultiStore s n).1.stores.keys.Nodup ∧
    (∀ k p, P.stores.get? k = some p → P.ListeningEnabled s k = false →
      ∃ b, (P.CacheMultiStore s n).1.stores.get? k = some b ∧ s.kv.length < b ∧
        nodeAt s.kv b = none ∧
        nodeAt (P.CacheMultiStore s n).2.kv b
          = some (tracedWrap p k P.traceWriter P.traceContext n) ∧
        IsCacheWrapOf (P.CacheMultiStore s n).2.kv b p) ∧
    (P.CacheMultiStore s n).1.traceWriter = P.traceWriter ∧
    (P.CacheMultiStore s n).1.traceContext = P.traceContext ∧
    (P.CacheMultiStore s n).1.listeners = P.listeners ∧
    (P.CacheMultiStore s n).1.keys = none := by
  obtain ⟨h1, h2, h3, h4, h5, h6, h7, h8, h9, h10⟩ := CacheMultiStore_shape s P n hnd
  refine ⟨h1, h2, h3, h4, h5, ?_, h7, h8, h9, h10⟩
  intro k p hp hL
  obtain ⟨b, hb, hlt, hnode⟩ := h6 k p hp
  rw [hL] at hnode
  simp only [Bool.false_eq_true, if_false] at hnode
  exact ⟨b, hb, hlt, nodeAt_ge _ _ (Nat.le_of_lt hlt), hnode, _, hnode, rfl, rfl⟩

/-- Witness of C8 (as amended): the branch of the root multi-store without
listeners; under "bank" it holds the overlay 5, a cache-wrap of the root's
overlay 3. -/
theorem CacheMultiStore_branch_witness :
    (root none).1.stores.keys.Nodup ∧
    (root none).1.stores.get? bank = some 3 ∧
    (root none).1.ListeningEnabled (root none).2 bank = false ∧
    (branch none).1.stores.get? bank = some 5 ∧
    (∃ b, (branch none).1.stores.get? bank = some b ∧ (root none).2.kv.length < b ∧
      nodeAt (root none).2.kv b = none ∧
      nodeAt (branch none).2.kv b
        = some (tracedWrap 3 bank (root none).1.traceWriter (root none).1.traceContext 0) ∧
      IsCacheWrapOf (branch none).2.kv b 3) ∧
    (branch none).1.db = (root none).2.kv.length ∧
    (branch none).1.keys = none :=
  ⟨by decide, by decide, by decide, by decide,
   (CacheMultiStore_branch (root none).2 (root none).1 0 (by decide)).2.2.2.2.2.1 bank 3
     (by decide) (by decide),
   (CacheMultiStore_branch (root none).2 (root none).1 0 (by decide)).1,
   (CacheMultiStore_branch (root none).2 (root none).1 0 (by decide)).2.2.2.2.2.2.2.2.2⟩

end cachemulti
